import Mathlib

/-!
Verification of the assembly-segmentation engine of `src/utils/asm-utils.ts`:
marker scanning, single-function boundary resolution (`extractAssemblyFunction`),
whole-module cataloging (`listAssemblyFunctions`), call-reference extraction
(`extractFunctionCallsFromAssembly`) and the pure text transformation of
`removeAssemblyFunction`.  Strings are modelled as Lean `String`s; the
JavaScript operations `split('\n')`, `trim()`, `includes`, `startsWith`,
regular-expression matching, `replace(pat, '')` and `replace(/\n{3,}/g,'\n\n')`
are embedded as executable functions over the underlying character lists.
All inputs of interest are ASCII, where JavaScript's whitespace classes and
Lean's `Char.isWhitespace` agree.
-/

/-- The character list of a line split: JavaScript `s.split('\n')`. -/
def splitLinesAux (cur : List Char) : List Char → List String
  | [] => [String.mk cur.reverse]
  | c :: cs =>
    if c == '\n' then String.mk cur.reverse :: splitLinesAux [] cs
    else splitLinesAux (c :: cur) cs

/-- JavaScript `s.split('\n')`. -/
def splitLines (s : String) : List String :=
  splitLinesAux [] s.data

/-- JavaScript `String.prototype.trim` (ASCII whitespace). -/
def trimStr (s : String) : String :=
  String.mk (((s.data.dropWhile Char.isWhitespace).reverse.dropWhile Char.isWhitespace).reverse)

/-- Substring containment on character lists: JavaScript `hay.includes(needle)`. -/
def containsSub (needle : List Char) : List Char → Bool
  | [] => needle.isPrefixOf []
  | c :: cs => needle.isPrefixOf (c :: cs) || containsSub needle cs

/-- JavaScript `s.includes(pat)`. -/
def strIncludes (s pat : String) : Bool :=
  containsSub pat.data s.data

/-- JavaScript `s.startsWith(pat)`. -/
def strStartsWith (s pat : String) : Bool :=
  pat.data.isPrefixOf s.data

/-- `lines[i]` with out-of-range access giving `""` (never exercised in range). -/
def lineAt (lines : List String) (i : Nat) : String :=
  (lines.get? i).getD ""

/-- JavaScript `lines.slice(a, b).join('\n')`. -/
def joinSlice (lines : List String) (a b : Nat) : String :=
  String.intercalate "\n" ((lines.drop a).take (b - a))

/-- JavaScript `\w` character class. -/
def isWordChar (c : Char) : Bool :=
  c.isAlphanum || c == '_'

/-- Tail of regex `\s+(\w+)`: at least one whitespace, then the captured
maximal word-character run (nonempty). -/
def wsWord (l : List Char) : Option (List Char) :=
  let ws := l.takeWhile Char.isWhitespace
  if ws.isEmpty then none
  else
    let w := (l.dropWhile Char.isWhitespace).takeWhile isWordChar
    if w.isEmpty then none else some w

/-- Try regex `kw\s+(\w+)` anchored at the current position. -/
def tryKwWordAt (kw l : List Char) : Option (List Char) :=
  match kw.isPrefixOf? l with
  | some rest => wsWord rest
  | none => none

/-- Leftmost match of regex `kw\s+(\w+)`; returns the captured group. -/
def scanKwWord (kw : List Char) : List Char → Option (List Char)
  | [] => tryKwWordAt kw []
  | c :: cs =>
    match tryKwWordAt kw (c :: cs) with
    | some w => some w
    | none => scanKwWord kw cs

/-- `line.match(/glabel\s+(\w+)/)` — captured group of the first match. -/
def matchGlabelName (line : String) : Option String :=
  (scanKwWord "glabel".data line.data).map String.mk

/-- `line.match(/jal\s+(\w+)/)` — captured group of the first match. -/
def matchJalName (line : String) : Option String :=
  (scanKwWord "jal".data line.data).map String.mk

/-- Try regex `.size\s+(\w+)` at the current position: the unescaped `.`
consumes one arbitrary character (lines carry no line terminators here). -/
def tryDotSizeAt : List Char → Option (List Char)
  | [] => none
  | _ :: rest =>
    match ("size".data).isPrefixOf? rest with
    | some rest2 => wsWord rest2
    | none => none

/-- `line.match(/.size\s+(\w+)/)` — captured group of the first match. -/
def scanDotSize : List Char → Option (List Char)
  | [] => none
  | c :: cs =>
    match tryDotSizeAt (c :: cs) with
    | some w => some w
    | none => scanDotSize cs

/-- `line.match(/.size\s+(\w+)/)` on a `String`. -/
def matchDotSizeName (line : String) : Option String :=
  (scanDotSize line.data).map String.mk

/-- Try regex `@\s*=(\w+)` at the current position. -/
def tryAtRefAt : List Char → Option (List Char)
  | '@' :: rest =>
    match rest.dropWhile Char.isWhitespace with
    | '=' :: rest2 =>
      let w := rest2.takeWhile isWordChar
      if w.isEmpty then none else some w
    | _ => none
  | _ => none

/-- `line.match(/@\s*=(\w+)/)` — captured group of the first match. -/
def scanAtRef : List Char → Option (List Char)
  | [] => none
  | c :: cs =>
    match tryAtRefAt (c :: cs) with
    | some w => some w
    | none => scanAtRef cs

/-- Backtracking tail of greedy `.*=(\w+)`: the word after the last `=`
that is directly followed by at least one word character. -/
def lastEqWord : List Char → Option (List Char)
  | [] => none
  | c :: rest =>
    if c == '=' then
      match lastEqWord rest with
      | some w => some w
      | none =>
        let w := rest.takeWhile isWordChar
        if w.isEmpty then none else some w
    else lastEqWord rest

/-- Try regex `(?:la|add|move).*=(\w+)` at the current position. -/
def tryDirectAt (l : List Char) : Option (List Char) :=
  match ("la".data).isPrefixOf? l with
  | some rest => lastEqWord rest
  | none =>
    match ("add".data).isPrefixOf? l with
    | some rest => lastEqWord rest
    | none =>
      match ("move".data).isPrefixOf? l with
      | some rest => lastEqWord rest
      | none => none

/-- `line.match(/(?:la|add|move).*=(\w+)/)` — captured group of the
leftmost position where the whole pattern matches. -/
def scanDirect : List Char → Option (List Char)
  | [] => none
  | c :: cs =>
    match tryDirectAt (c :: cs) with
    | some w => some w
    | none => scanDirect cs

/-- Insertion into the `Set`-backed accumulator of
`extractFunctionCallsFromAssembly`: insertion order, duplicates dropped. -/
def addCall (acc : List String) : Option (List Char) → List String
  | some w =>
    let n := String.mk w
    if acc.contains n then acc else acc ++ [n]
  | none => acc

/-- `extractFunctionCallsFromAssembly` of `asm-utils.ts`: per trimmed line,
the `jal`, `@ =name` and `(la|add|move)...=name` matchers, unioned. -/
def extractFunctionCallsFromAssembly (assembly : String) : List String :=
  (splitLines assembly).foldl
    (fun acc line =>
      let t := trimStr line
      let acc1 := addCall acc (scanKwWord "jal".data t.data)
      let acc2 := addCall acc1 (scanAtRef t.data)
      addCall acc2 (scanDirect t.data))
    []

/-- The `SEARCHING` phase of `extractAssemblyFunction`, on explicit fuel:
with `fuel = lines.length - i` the fuel guard coincides with the loop bound
`i < lines.length`. -/
def findStartGo (lines : List String) (target : String) : Nat → Nat → Option Nat
  | 0, _ => none
  | fuel + 1, i =>
    let line := trimStr (lineAt lines i)
    if strIncludes line ("glabel " ++ target) then some i
    else if strStartsWith line (target ++ ":") then some i
    else findStartGo lines target fuel (i + 1)

/-- The `SEARCHING` phase of `extractAssemblyFunction`: the first line whose
trimmed text contains `glabel <target>` or begins with `<target>:`. -/
def findStart (lines : List String) (target : String) : Option Nat :=
  findStartGo lines target lines.length 0

/-- The inner `k`-loop of the return-marker fallback in
`extractAssemblyFunction` (`for (let k = j + 1; k < i; k++)`), on explicit
fuel `i - k`: `prev` is the trimmed return-marker line, `fe` the running
`functionEnd`. -/
def jrScanGo (lines : List String) (prev : String) : Nat → Nat → Int → Int
  | 0, _, fe => fe
  | fuel + 1, k, fe =>
    let nextLine := trimStr (lineAt lines k)
    if strStartsWith prev ".size" || prev == ".align 3" then
      jrScanGo lines prev fuel (k + 1) (Int.ofNat k)
    else if nextLine != "" && !strStartsWith nextLine ".align" then fe
    else jrScanGo lines prev fuel (k + 1) fe

/-- The inner `k`-loop of the return-marker fallback, from `k` up to `i - 1`. -/
def jrScan (lines : List String) (prev : String) (i k : Nat) (fe : Int) : Int :=
  jrScanGo lines prev (i - k) k fe

/-- One iteration of the backward terminator search of
`extractAssemblyFunction` at index `j`: `some e` when the iteration sets
`functionEnd` and breaks, `none` when the scan continues downward. -/
def backHit (lines : List String) (i j : Nat) : Option Nat :=
  let prev := trimStr (lineAt lines j)
  if strStartsWith prev ".size" || prev == ".align 3" then some j
  else if strStartsWith prev "jr " then
    let fe := jrScan lines prev i (j + 1) (-1)
    some (if fe == -1 then j else fe.toNat)
  else none

/-- The backward terminator search of `extractAssemblyFunction`
(`for (let j = i - 1; j >= functionStart; j--)`), entered at `j = i - 1`. -/
def backScan (lines : List String) (fs i : Nat) : Nat → Option Nat
  | 0 =>
    if 0 < fs then none else backHit lines i 0
  | j + 1 =>
    if j + 1 < fs then none
    else
      match backHit lines i (j + 1) with
      | some e => some e
      | none => backScan lines fs i j

/-- End resolution of `extractAssemblyFunction` when, in the `OPEN` state, the
current line `i` contains `glabel`: the backward terminator search, defaulting
to `i - 1` when it finds nothing. -/
def glabelResolve (lines : List String) (fs i : Nat) : Nat :=
  match backScan lines fs i (i - 1) with
  | some e => e
  | none => i - 1

/-- The `OPEN` phase of `extractAssemblyFunction`, on explicit fuel
`lines.length - i`: a line containing `.size <target>` closes exactly there;
otherwise a line containing `glabel` closes via `glabelResolve`; otherwise
continue. -/
def findEndGo (lines : List String) (target : String) (fs : Nat) :
    Nat → Nat → Option Nat
  | 0, _ => none
  | fuel + 1, i =>
    let line := trimStr (lineAt lines i)
    if strIncludes line (".size " ++ target) then some i
    else if strIncludes line "glabel" then some (glabelResolve lines fs i)
    else findEndGo lines target fs fuel (i + 1)

/-- The `OPEN` phase of `extractAssemblyFunction`, scanning forward from
`fs + 1`. -/
def findEnd (lines : List String) (target : String) (fs : Nat) : Option Nat :=
  findEndGo lines target fs (lines.length - (fs + 1)) (fs + 1)

/-- The inclusive line range resolved by `extractAssemblyFunction` (the final
guard `functionStart !== -1 && functionEnd !== -1 && functionEnd >=
functionStart` included). -/
def extractRange (content target : String) : Option (Nat × Nat) :=
  let lines := splitLines content
  match findStart lines target with
  | none => none
  | some fs =>
    match findEnd lines target fs with
    | none => none
    | some fe => if fs ≤ fe then some (fs, fe) else none

/-- `extractAssemblyFunction` of `asm-utils.ts`:
`lines.slice(functionStart, functionEnd + 1).join('\n')` on success. -/
def extractAssemblyFunction (content target : String) : Option String :=
  match extractRange content target with
  | none => none
  | some (fs, fe) => some (joinSlice (splitLines content) fs (fe + 1))

/-- One emitted record of `listAssemblyFunctions`. -/
structure AsmFunction where
  name : String
  code : String
deriving DecidableEq, Repr

/-- Scan state of `listAssemblyFunctions`: the emitted records and the
current open function (`name`, `startIndex`). -/
structure CatState where
  funcs : List AsmFunction
  current : Option (String × Nat)
deriving DecidableEq, Repr

/-- One loop iteration of `listAssemblyFunctions` at line index `i`. -/
def catalogStep (lines : List String) (st : CatState) (i : Nat) : CatState :=
  let line := trimStr (lineAt lines i)
  match matchGlabelName line with
  | some name =>
    match st.current with
    | some (n, s) =>
      { funcs := st.funcs ++ [⟨n, joinSlice lines s i⟩], current := some (name, i) }
    | none => { st with current := some (name, i) }
  | none =>
    match st.current with
    | some (n, s) =>
      if matchDotSizeName line = some n then
        { funcs := st.funcs ++ [⟨n, joinSlice lines s (i + 1)⟩], current := none }
      else if strIncludes line "glabel" then
        { funcs := st.funcs ++ [⟨n, joinSlice lines s i⟩],
          current := some ((matchGlabelName line).getD "", i) }
      else st
    | none => st

/-- `listAssemblyFunctions` of `asm-utils.ts`. -/
def listAssemblyFunctions (content : String) : List AsmFunction :=
  let lines := splitLines content
  let st := (List.range lines.length).foldl (catalogStep lines) ⟨[], none⟩
  match st.current with
  | some (n, s) => st.funcs ++ [⟨n, joinSlice lines s lines.length⟩]
  | none => st.funcs

/-- JavaScript `s.replace(pat, '')` for a plain (non-regex) pattern: delete
the first occurrence of `pat`, on character lists. -/
def removeFirstAux (pat : List Char) : List Char → List Char
  | [] => []
  | c :: cs =>
    if pat.isPrefixOf (c :: cs) then (c :: cs).drop pat.length
    else c :: removeFirstAux pat cs

/-- JavaScript `s.replace(pat, '')` for a plain pattern, on `String`s. -/
def removeFirstOccurrence (s pat : String) : String :=
  String.mk (removeFirstAux pat.data s.data)

/-- Replacement text chosen by `replace(/\n{3,}/g, '\n\n')` for a maximal run
of `k` consecutive line breaks. -/
def emitNL (k : Nat) : List Char :=
  if 3 ≤ k then ['\n', '\n'] else List.replicate k '\n'

/-- JavaScript `s.replace(/\n{3,}/g, '\n\n')` on character lists: `k` counts
the pending run of consecutive line breaks. -/
def collapseNLAux : Nat → List Char → List Char
  | k, [] => emitNL k
  | k, c :: cs =>
    if c == '\n' then collapseNLAux (k + 1) cs
    else emitNL k ++ c :: collapseNLAux 0 cs

/-- JavaScript `s.replace(/\n{3,}/g, '\n\n')`. -/
def collapseNewlines (s : String) : String :=
  String.mk (collapseNLAux 0 s.data)

/-- The pure text transformation of `removeAssemblyFunction` of
`asm-utils.ts`: locate the function text, delete its first occurrence, then
collapse runs of three or more line breaks; the surrounding file read/write
and editor-save steps are external I/O and out of scope. -/
def removeAssemblyFunctionPure (content target : String) : Option String :=
  match extractAssemblyFunction content target with
  | none => none
  | some functionCode =>
    some (collapseNewlines (removeFirstOccurrence content functionCode))

/-- Detector for a run of three or more consecutive line breaks. -/
def startsNNN (l : List Char) : Bool :=
  ['\n', '\n', '\n'].isPrefixOf l

/-- `true` iff the character list contains three consecutive line breaks. -/
def hasNNN : List Char → Bool
  | [] => false
  | c :: cs => startsNNN (c :: cs) || hasNNN cs

theorem isPrefixOf?_eq_some {l₁ l₂ t : List Char} (h : l₁.isPrefixOf? l₂ = some t) :
    l₂ = l₁ ++ t := by
  induction l₁ generalizing l₂ with
  | nil =>
    simp [List.isPrefixOf?] at h
    simp [h]
  | cons x₁ l₁ ih =>
    cases l₂ with
    | nil => simp [List.isPrefixOf?] at h
    | cons x₂ l₂ =>
      simp only [List.isPrefixOf?] at h
      by_cases hx : x₁ == x₂
      · rw [if_pos hx] at h
        rw [beq_iff_eq] at hx
        simp [← hx, ih h]
      · rw [if_neg hx] at h
        exact absurd h (by simp)

theorem strStartsWith_cons {s p : String} (h : strStartsWith s p = true)
    (c : Char) (cs : List Char) (hp : p.data = c :: cs) :
    ∃ t, s.data = c :: t := by
  unfold strStartsWith at h
  rw [List.isPrefixOf_iff_prefix] at h
  rw [hp] at h
  obtain ⟨t, ht⟩ := h
  exact ⟨cs ++ t, by simp [← ht]⟩

theorem emitNL_cases (k : Nat) :
    emitNL k = [] ∨ emitNL k = ['\n'] ∨ emitNL k = ['\n', '\n'] := by
  unfold emitNL
  by_cases h : 3 ≤ k
  · simp [h]
  · rw [if_neg h]
    interval_cases k <;> simp

theorem hasNNN_emit_append (k : Nat) {c : Char} (hc : c ≠ '\n') {l : List Char}
    (hl : hasNNN l = false) : hasNNN (emitNL k ++ c :: l) = false := by
  have hb : ('\n' == c) = false := beq_eq_false_iff_ne.mpr fun h => hc h.symm
  have s0 : startsNNN (c :: l) = false := by
    simp only [startsNNN, List.isPrefixOf, hb, beq_self_eq_true, Bool.true_and,
      Bool.false_and, Bool.and_false]
  have base : hasNNN (c :: l) = false := by
    simp only [hasNNN, s0, hl, Bool.false_or]
  have s1 : startsNNN ('\n' :: c :: l) = false := by
    simp only [startsNNN, List.isPrefixOf, hb, beq_self_eq_true, Bool.true_and,
      Bool.false_and, Bool.and_false]
  have s2 : startsNNN ('\n' :: '\n' :: c :: l) = false := by
    simp only [startsNNN, List.isPrefixOf, hb, beq_self_eq_true, Bool.true_and,
      Bool.false_and, Bool.and_false]
  rcases emitNL_cases k with h | h | h <;> rw [h]
  · simpa using base
  · simp only [List.cons_append, List.nil_append, List.append_eq, hasNNN, s1, s0, hl,
      Bool.false_or]
  · simp only [List.cons_append, List.nil_append, List.append_eq, hasNNN, s2, s1, s0, hl,
      Bool.false_or]

theorem hasNNN_emitNL (k : Nat) : hasNNN (emitNL k) = false := by
  rcases emitNL_cases k with h | h | h <;> rw [h] <;> decide

theorem hasNNN_collapseNLAux (cs : List Char) : ∀ k, hasNNN (collapseNLAux k cs) = false := by
  induction cs with
  | nil => intro k; exact hasNNN_emitNL k
  | cons c cs ih =>
    intro k
    unfold collapseNLAux
    by_cases hc : c == '\n'
    · rw [if_pos hc]; exact ih (k + 1)
    · rw [if_neg hc]
      exact hasNNN_emit_append k (by simpa using hc) (ih 0)

/-- C8 (confirmed): for every module text and every successfully removed
function, the text produced by the pure removal transformation contains no run
of three or more consecutive line breaks — the `replace(/\n{3,}/g, '\n\n')`
step collapses every such run to exactly two. -/
theorem removeAssemblyFunctionPure_no_triple_newline (content target s : String)
    (h : removeAssemblyFunctionPure content target = some s) :
    hasNNN s.data = false := by
  unfold removeAssemblyFunctionPure at h
  cases hx : extractAssemblyFunction content target with
  | none => rw [hx] at h; exact absurd h (by simp)
  | some fc =>
    rw [hx] at h
    have hs : s = collapseNewlines (removeFirstOccurrence content fc) := by
      injection h with h'
      exact h'.symm
    rw [hs]
    exact hasNNN_collapseNLAux _ 0

/-- Witness for C8 at a concrete module. -/
theorem removeAssemblyFunctionPure_no_triple_newline_witness :
    hasNNN ("" : String).data = false :=
  removeAssemblyFunctionPure_no_triple_newline "glabel f\n.size f" "f" "" (by decide)

/-- C1 counterexample: the start marker for `f` is found at line 0, yet the
resolver reports not-found because no later line closes the function. -/
theorem extractAssemblyFunction_none_despite_start :
    extractAssemblyFunction "glabel f" "f" = none ∧
    findStart (splitLines "glabel f") "f" = some 0 := by decide

/-- C2 counterexample: a bare label `f:` precedes the `glabel f` start marker
at line 1, and the resolver starts at the bare label line 0 even though a
start marker exists in the buffer. -/
theorem findStart_prefers_earlier_bare_label :
    extractRange "f:\nglabel f\n.size f" "f" = some (0, 0) ∧
    strIncludes (trimStr (lineAt (splitLines "f:\nglabel f\n.size f") 1))
      ("glabel " ++ "f") = true := by decide

/-- C3 counterexample: after removing `f` from a module with two `f`
definitions and a four-newline run inside `g`, re-cataloging still lists `f`,
and the whitespace normalization changes the `code` text of `g`. -/
theorem removal_roundtrip_fails :
    removeAssemblyFunctionPure
      "glabel f\n.size f\nglabel f\n.size f\nglabel g\n\n\n\nx\n.size g" "f" =
      some "\nglabel f\n.size f\nglabel g\n\nx\n.size g" ∧
    (listAssemblyFunctions "\nglabel f\n.size f\nglabel g\n\nx\n.size g").map
      AsmFunction.name = ["f", "g"] ∧
    ((listAssemblyFunctions "\nglabel f\n.size f\nglabel g\n\nx\n.size g").filter
      (fun r => r.name == "g")).map AsmFunction.code = ["glabel g\n\nx\n.size g"] ∧
    ((listAssemblyFunctions
      "glabel f\n.size f\nglabel f\n.size f\nglabel g\n\n\n\nx\n.size g").filter
      (fun r => r.name == "g")).map AsmFunction.code =
      ["glabel g\n\n\n\nx\n.size g"] := by decide

/-- C5 counterexample: a `.size f` line exists at line 2 after the resolved
start, but a `glabel` line intervenes at line 1, so the resolver ends the
range at line 0 instead of at the size marker. -/
theorem extractRange_misses_size_marker_after_next_glabel :
    extractRange "glabel f\nglabel g\n.size f" "f" = some (0, 0) ∧
    strIncludes (trimStr (lineAt (splitLines "glabel f\nglabel g\n.size f") 2))
      (".size " ++ "f") = true := by decide

/-- C6 counterexample: the regex `/.size\s+(\w+)/` has an unescaped dot, so
line 1 `Xsize f`, which contains no literal `.size`, closes the open function
inclusively (the emitted record ends at line 1 and `tail` is dropped). -/
theorem catalog_close_without_dot_size :
    listAssemblyFunctions "glabel f\nXsize f\ntail" =
      [⟨"f", "glabel f\nXsize f"⟩] ∧
    strIncludes (trimStr (lineAt (splitLines "glabel f\nXsize f\ntail") 1))
      ".size" = false := by decide

/-- C7 counterexample: the generic reference regex is unanchored, so the line
`xla r0, =foo` — whose instruction does not begin with `la`, `add` or `move` —
still contributes `foo`, and neither the `jal` nor the `@ =` matcher fires. -/
theorem extractCalls_direct_matcher_unanchored :
    extractFunctionCallsFromAssembly "xla r0, =foo" = ["foo"] ∧
    strStartsWith (trimStr "xla r0, =foo") "la" = false ∧
    strStartsWith (trimStr "xla r0, =foo") "add" = false ∧
    strStartsWith (trimStr "xla r0, =foo") "move" = false ∧
    scanKwWord "jal".data (trimStr "xla r0, =foo").data = none ∧
    scanAtRef (trimStr "xla r0, =foo").data = none := by decide

/-- C9 counterexample: line 1 contains the substring `glabel`, yet because it
also contains `.size f` the size branch wins: the resolved end is 1, not the
backward-search result 0. -/
theorem findEnd_size_precedes_glabel :
    extractRange "glabel f\nglabel .size f" "f" = some (0, 1) ∧
    strIncludes (trimStr (lineAt (splitLines "glabel f\nglabel .size f") 1))
      "glabel" = true ∧
    glabelResolve (splitLines "glabel f\nglabel .size f") 0 1 = 0 := by decide

/-- C10 counterexample: line 1 contains `glabel` and does not match
`glabel <identifier>`, yet because the size-marker rule fires first the open
function is closed inclusively at line 1 and no empty-named function is
opened. -/
theorem catalog_malformed_glabel_size_precedence :
    listAssemblyFunctions "glabel f\nglabel, .size f\ntail" =
      [⟨"f", "glabel f\nglabel, .size f"⟩] ∧
    strIncludes (trimStr (lineAt (splitLines "glabel f\nglabel, .size f\ntail") 1))
      "glabel" = true ∧
    matchGlabelName (trimStr (lineAt (splitLines "glabel f\nglabel, .size f\ntail") 1)) =
      none := by decide

theorem strIncludes_empty_glabel (target : String) (pre : String)
    (hpre : ∃ c cs, pre.data = c :: cs) :
    strIncludes "" (pre ++ target) = false := by
  obtain ⟨c, cs, hc⟩ := hpre
  unfold strIncludes containsSub
  rw [String.data_append, hc]
  rfl

theorem strStartsWith_empty_ne (p : String) (hp : p.data ≠ []) :
    strStartsWith "" p = false := by
  unfold strStartsWith
  cases hl : p.data with
  | nil => exact absurd hl hp
  | cons a as => rfl

theorem lineAt_oob (lines : List String) (i : Nat) (h : lines.length ≤ i) :
    lineAt lines i = "" := by
  unfold lineAt
  rw [List.get?_eq_none.mpr h]
  rfl

theorem start_cond_imp_lt (lines : List String) (target : String) (i : Nat)
    (h : strIncludes (trimStr (lineAt lines i)) ("glabel " ++ target) = true ∨
         strStartsWith (trimStr (lineAt lines i)) (target ++ ":") = true) :
    i < lines.length := by
  by_contra hge
  push_neg at hge
  rw [lineAt_oob lines i hge] at h
  have htrim : trimStr "" = "" := rfl
  rw [htrim] at h
  rcases h with h | h
  · rw [strIncludes_empty_glabel target "glabel " ⟨'g', "label ".data, rfl⟩] at h
    exact absurd h (by simp)
  · rw [strStartsWith_empty_ne (target ++ ":") (by simp [String.data_append])] at h
    exact absurd h (by simp)

theorem findStartGo_first (lines : List String) (target : String) (j : Nat)
    (hq : strIncludes (trimStr (lineAt lines j)) ("glabel " ++ target) = true ∨
          strStartsWith (trimStr (lineAt lines j)) (target ++ ":") = true)
    (hfirst : ∀ p, p < j →
      strIncludes (trimStr (lineAt lines p)) ("glabel " ++ target) = false ∧
      strStartsWith (trimStr (lineAt lines p)) (target ++ ":") = false) :
    ∀ fuel i, fuel = lines.length - i → i ≤ j →
      findStartGo lines target fuel i = some j := by
  have hj : j < lines.length := start_cond_imp_lt lines target j hq
  intro fuel
  induction fuel with
  | zero => intro i hf hij; omega
  | succ f ih =>
    intro i hf hij
    rcases Nat.lt_or_ge i j with hlt | hge
    · have hp := hfirst i hlt
      simp only [findStartGo, hp.1, hp.2, Bool.false_eq_true, if_false]
      exact ih (i + 1) (by omega) (by omega)
    · have hij' : i = j := by omega
      subst hij'
      rcases hb : strIncludes (trimStr (lineAt lines i)) ("glabel " ++ target) with _ | _
      · have hq2 : strStartsWith (trimStr (lineAt lines i)) (target ++ ":") = true := by
          rcases hq with h | h
          · rw [h] at hb; exact absurd hb (by simp)
          · exact h
        simp only [findStartGo, hb, hq2, Bool.false_eq_true, if_false, if_true]
      · simp only [findStartGo, hb, if_true]

theorem findStartGo_some_first (lines : List String) (target : String) :
    ∀ fuel i j, fuel = lines.length - i →
    findStartGo lines target fuel i = some j →
    (strIncludes (trimStr (lineAt lines j)) ("glabel " ++ target) = true ∨
     strStartsWith (trimStr (lineAt lines j)) (target ++ ":") = true) ∧
    ∀ p, i ≤ p → p < j →
      strIncludes (trimStr (lineAt lines p)) ("glabel " ++ target) = false ∧
      strStartsWith (trimStr (lineAt lines p)) (target ++ ":") = false := by
  intro fuel
  induction fuel with
  | zero =>
    intro i j _ h
    exact absurd h (by simp [findStartGo])
  | succ f ih =>
    intro i j hf h
    rcases hb : strIncludes (trimStr (lineAt lines i)) ("glabel " ++ target) with _ | _
    · rcases hb2 : strStartsWith (trimStr (lineAt lines i)) (target ++ ":") with _ | _
      · simp only [findStartGo, hb, hb2, Bool.false_eq_true, if_false] at h
        obtain ⟨hq, hfirst⟩ := ih (i + 1) j (by omega) h
        refine ⟨hq, ?_⟩
        intro p hp1 hp2
        rcases Nat.lt_or_ge p (i + 1) with hlt | hge
        · have hpi : p = i := by omega
          rw [hpi]
          exact ⟨hb, hb2⟩
        · exact hfirst p hge hp2
      · simp only [findStartGo, hb, hb2, Bool.false_eq_true, if_false, if_true] at h
        injection h with h'
        subst h'
        exact ⟨Or.inr hb2, fun p hp1 hp2 => by omega⟩
    · simp only [findStartGo, hb, if_true] at h
      injection h with h'
      subst h'
      exact ⟨Or.inl hb, fun p hp1 hp2 => by omega⟩

/-- C2 (amended): the resolver's start is exactly the first line whose trimmed
text contains `glabel <target>` or begins with `<target>:`; in particular a
bare label line preceding every start marker is chosen as start even when a
`glabel <target>` start marker exists later in the buffer. -/
theorem findStart_first_marker_or_label (lines : List String) (target : String)
    (j : Nat) :
    findStart lines target = some j ↔
      ((strIncludes (trimStr (lineAt lines j)) ("glabel " ++ target) = true ∨
        strStartsWith (trimStr (lineAt lines j)) (target ++ ":") = true) ∧
       ∀ p, p < j →
         strIncludes (trimStr (lineAt lines p)) ("glabel " ++ target) = false ∧
         strStartsWith (trimStr (lineAt lines p)) (target ++ ":") = false) := by
  constructor
  · intro h
    obtain ⟨hq, hfirst⟩ := findStartGo_some_first lines target lines.length 0 j
      (by omega) h
    exact ⟨hq, fun p hp => hfirst p (by omega) hp⟩
  · intro ⟨hq, hfirst⟩
    unfold findStart
    exact findStartGo_first lines target j hq hfirst lines.length 0 (by omega) (by omega)

/-- Witness for C2 at a concrete buffer: the bare label at line 0 wins. -/
theorem findStart_first_marker_or_label_witness :
    findStart (splitLines "f:\nglabel f") "f" = some 0 :=
  (findStart_first_marker_or_label (splitLines "f:\nglabel f") "f" 0).mpr
    ⟨Or.inr (by decide), fun p hp => absurd hp (Nat.not_lt_zero p)⟩

theorem size_cond_imp_lt (lines : List String) (target : String) (m : Nat)
    (h : strIncludes (trimStr (lineAt lines m)) (".size " ++ target) = true) :
    m < lines.length := by
  by_contra hge
  push_neg at hge
  rw [lineAt_oob lines m hge] at h
  have htrim : trimStr "" = "" := rfl
  rw [htrim] at h
  rw [strIncludes_empty_glabel target ".size " ⟨'.', "size ".data, rfl⟩] at h
  exact absurd h (by simp)

theorem findEndGo_skip (lines : List String) (target : String) (fs m : Nat)
    (hm : m ≤ lines.length) :
    ∀ fuel i, fuel = lines.length - i → i ≤ m →
    (∀ p, i ≤ p → p < m →
      strIncludes (trimStr (lineAt lines p)) (".size " ++ target) = false ∧
      strIncludes (trimStr (lineAt lines p)) "glabel" = false) →
    findEndGo lines target fs fuel i = findEndGo lines target fs (lines.length - m) m := by
  intro fuel
  induction fuel with
  | zero =>
    intro i hf him _
    have h1 : i = m := by omega
    subst h1
    have h2 : lines.length - i = 0 := by omega
    rw [h2]
  | succ f ih =>
    intro i hf him hskip
    rcases Nat.lt_or_ge i m with hlt | hge
    · have hp := hskip i (Nat.le_refl i) hlt
      simp only [findEndGo, hp.1, hp.2, Bool.false_eq_true, if_false]
      exact ih (i + 1) (by omega) (by omega)
        (fun p hp1 hp2 => hskip p (by omega) hp2)
    · have h1 : i = m := by omega
      subst h1
      rw [hf]

/-- C5 (amended): the resolver ends exactly at the first `.size <target>` line
after the resolved start, provided no line between the start and that marker
contains `.size <target>` or `glabel`; an intervening `glabel` line diverts
resolution to the backward terminator search before the marker is reached. -/
theorem extractRange_ends_at_first_size_marker (content target : String)
    (fs m : Nat)
    (hstart : findStart (splitLines content) target = some fs)
    (hlt : fs < m)
    (hsize : strIncludes (trimStr (lineAt (splitLines content) m))
      (".size " ++ target) = true)
    (hbetween : ∀ p, fs < p → p < m →
      strIncludes (trimStr (lineAt (splitLines content) p)) (".size " ++ target) = false ∧
      strIncludes (trimStr (lineAt (splitLines content) p)) "glabel" = false) :
    extractRange content target = some (fs, m) := by
  have hmlt : m < (splitLines content).length := size_cond_imp_lt _ target m hsize
  have hend : findEnd (splitLines content) target fs = some m := by
    unfold findEnd
    rw [findEndGo_skip (splitLines content) target fs m (by omega)
      ((splitLines content).length - (fs + 1)) (fs + 1) rfl (by omega)
      (fun p hp1 hp2 => hbetween p (by omega) hp2)]
    obtain ⟨f, hfm⟩ : ∃ f, (splitLines content).length - m = f + 1 :=
      ⟨(splitLines content).length - m - 1, by omega⟩
    rw [hfm]
    simp only [findEndGo, hsize, if_true]
  simp only [extractRange, hstart, hend]
  rw [if_pos (by omega : fs ≤ m)]

/-- Witness for C5 at a concrete module with an explicit size marker. -/
theorem extractRange_ends_at_first_size_marker_witness :
    extractRange "glabel f\nbody\n.size f" "f" = some (0, 2) :=
  extractRange_ends_at_first_size_marker "glabel f\nbody\n.size f" "f" 0 2
    (by decide) (by omega) (by decide)
    (by
      intro p hp1 hp2
      interval_cases p
      exact ⟨by decide, by decide⟩)

/-- C9 (amended): while the resolver is in the `OPEN` state, a line that does
not contain `.size <target>` but contains the substring `glabel` anywhere —
well-formed start marker or not — is treated as the start of the next function
and the end is resolved by the backward terminator search (`glabelResolve`). -/
theorem findEnd_glabel_triggers_backward_search (lines : List String)
    (target : String) (fs i : Nat)
    (hfs : fs < i) (hi : i < lines.length)
    (hbetween : ∀ p, fs < p → p < i →
      strIncludes (trimStr (lineAt lines p)) (".size " ++ target) = false ∧
      strIncludes (trimStr (lineAt lines p)) "glabel" = false)
    (hsize : strIncludes (trimStr (lineAt lines i)) (".size " ++ target) = false)
    (hglabel : strIncludes (trimStr (lineAt lines i)) "glabel" = true) :
    findEnd lines target fs = some (glabelResolve lines fs i) := by
  unfold findEnd
  rw [findEndGo_skip lines target fs i (by omega)
    (lines.length - (fs + 1)) (fs + 1) rfl (by omega)
    (fun p hp1 hp2 => hbetween p (by omega) hp2)]
  obtain ⟨f, hfm⟩ : ∃ f, lines.length - i = f + 1 := ⟨lines.length - i - 1, by omega⟩
  rw [hfm]
  simp only [findEndGo, hsize, hglabel, Bool.false_eq_true, if_false, if_true]

/-- Witness for C9 at a concrete buffer whose line 2 contains `glabel`. -/
theorem findEnd_glabel_triggers_backward_search_witness :
    findEnd (splitLines "glabel f\nbody\nglabel g") "f" 0 =
      some (glabelResolve (splitLines "glabel f\nbody\nglabel g") 0 2) :=
  findEnd_glabel_triggers_backward_search (splitLines "glabel f\nbody\nglabel g")
    "f" 0 2 (by omega) (by decide)
    (by
      intro p hp1 hp2
      interval_cases p
      exact ⟨by decide, by decide⟩)
    (by decide) (by decide)

theorem jrScanGo_const (lines : List String) (prev : String)
    (h : (strStartsWith prev ".size" || (prev == ".align 3")) = false) :
    ∀ fuel k fe, jrScanGo lines prev fuel k fe = fe := by
  intro fuel
  induction fuel with
  | zero => intro k fe; rfl
  | succ f ih =>
    intro k fe
    simp only [jrScanGo, h, Bool.false_eq_true, if_false]
    split
    · rfl
    · exact ih (k + 1) fe

theorem backHit_some (lines : List String) (i j e : Nat)
    (h : backHit lines i j = some e) : e = j := by
  simp only [backHit] at h
  rcases h1 : (strStartsWith (trimStr (lineAt lines j)) ".size" ||
      (trimStr (lineAt lines j) == ".align 3")) with _ | _
  · rw [h1] at h
    simp only [Bool.false_eq_true, if_false] at h
    rcases h2 : strStartsWith (trimStr (lineAt lines j)) "jr " with _ | _
    · rw [h2] at h
      simp only [Bool.false_eq_true, if_false] at h
      exact absurd h (by simp)
    · rw [h2] at h
      simp only [if_true] at h
      rw [show jrScan lines (trimStr (lineAt lines j)) i (j + 1) (-1) = -1 from
        jrScanGo_const lines _ h1 _ _ _] at h
      simp at h
      omega
  · rw [h1] at h
    simp only [if_true] at h
    injection h with h'
    omega

theorem backScan_some_ge (lines : List String) (fs i : Nat) :
    ∀ j e, backScan lines fs i j = some e → fs ≤ e := by
  intro j
  induction j with
  | zero =>
    intro e h
    unfold backScan at h
    by_cases h0 : 0 < fs
    · rw [if_pos h0] at h; exact absurd h (by simp)
    · rw [if_neg h0] at h
      have := backHit_some lines i 0 e h
      omega
  | succ j ih =>
    intro e h
    unfold backScan at h
    by_cases hlt : j + 1 < fs
    · rw [if_pos hlt] at h; exact absurd h (by simp)
    · rw [if_neg hlt] at h
      cases hh : backHit lines i (j + 1) with
      | some e2 =>
        rw [hh] at h
        injection h with h'
        have := backHit_some lines i (j + 1) e2 hh
        omega
      | none =>
        rw [hh] at h
        exact ih e h

theorem glabelResolve_ge (lines : List String) (fs i : Nat) (h : fs ≤ i - 1) :
    fs ≤ glabelResolve lines fs i := by
  unfold glabelResolve
  cases hb : backScan lines fs i (i - 1) with
  | some e => exact backScan_some_ge lines fs i (i - 1) e hb
  | none => exact h

theorem findEndGo_some_of_qual (lines : List String) (target : String) (fs : Nat) :
    ∀ fuel i, fuel = lines.length - i → fs < i →
    (∃ m, i ≤ m ∧ m < lines.length ∧
      (strIncludes (trimStr (lineAt lines m)) (".size " ++ target) = true ∨
       strIncludes (trimStr (lineAt lines m)) "glabel" = true)) →
    ∃ e, findEndGo lines target fs fuel i = some e ∧ fs ≤ e := by
  intro fuel
  induction fuel with
  | zero =>
    intro i hf hfs ⟨m, hm1, hm2, _⟩
    omega
  | succ f ih =>
    intro i hf hfs ⟨m, hm1, hm2, hq⟩
    rcases hs : strIncludes (trimStr (lineAt lines i)) (".size " ++ target) with _ | _
    · rcases hg : strIncludes (trimStr (lineAt lines i)) "glabel" with _ | _
      · have hmi : i ≠ m := by
          intro heq
          subst heq
          rcases hq with h | h
          · rw [hs] at h; exact absurd h (by simp)
          · rw [hg] at h; exact absurd h (by simp)
        obtain ⟨e, he, hfse⟩ := ih (i + 1) (by omega) (by omega)
          ⟨m, by omega, hm2, hq⟩
        refine ⟨e, ?_, hfse⟩
        simp only [findEndGo, hs, hg, Bool.false_eq_true, if_false]
        exact he
      · refine ⟨glabelResolve lines fs i, ?_, glabelResolve_ge lines fs i (by omega)⟩
        simp only [findEndGo, hs, hg, Bool.false_eq_true, if_false, if_true]
    · refine ⟨i, ?_, by omega⟩
      simp only [findEndGo, hs, if_true]

theorem findEndGo_none_of_no_qual (lines : List String) (target : String) (fs : Nat) :
    ∀ fuel i, fuel = lines.length - i →
    (∀ m, i ≤ m → m < lines.length →
      strIncludes (trimStr (lineAt lines m)) (".size " ++ target) = false ∧
      strIncludes (trimStr (lineAt lines m)) "glabel" = false) →
    findEndGo lines target fs fuel i = none := by
  intro fuel
  induction fuel with
  | zero => intro i _ _; rfl
  | succ f ih =>
    intro i hf hno
    have hi : i < lines.length := by omega
    have hm := hno i (Nat.le_refl i) hi
    simp only [findEndGo, hm.1, hm.2, Bool.false_eq_true, if_false]
    exact ih (i + 1) (by omega) (fun m h1 h2 => hno m (by omega) h2)

/-- C1 (amended): once the resolver finds a start line, it returns an
inclusive range exactly when some later line contains `.size <target>` or
`glabel`; when no such later line exists — for example a start marker on the
final line with no closing marker — it reports not-found even though the
start was found. -/
theorem extractRange_some_of_start_and_terminator (content target : String)
    (fs : Nat)
    (hstart : findStart (splitLines content) target = some fs) :
    ((∃ m, fs < m ∧ m < (splitLines content).length ∧
      (strIncludes (trimStr (lineAt (splitLines content) m)) (".size " ++ target) = true ∨
       strIncludes (trimStr (lineAt (splitLines content) m)) "glabel" = true)) →
      ∃ e, extractRange content target = some (fs, e) ∧ fs ≤ e) ∧
    ((∀ m, fs < m → m < (splitLines content).length →
      strIncludes (trimStr (lineAt (splitLines content) m)) (".size " ++ target) = false ∧
      strIncludes (trimStr (lineAt (splitLines content) m)) "glabel" = false) →
      extractAssemblyFunction content target = none) := by
  constructor
  · intro hterm
    obtain ⟨m, hm1, hm2, hq⟩ := hterm
    obtain ⟨e, he, hfse⟩ := findEndGo_some_of_qual (splitLines content) target fs
      ((splitLines content).length - (fs + 1)) (fs + 1) rfl (by omega)
      ⟨m, by omega, hm2, hq⟩
    refine ⟨e, ?_, hfse⟩
    have hend : findEnd (splitLines content) target fs = some e := he
    simp only [extractRange, hstart, hend]
    rw [if_pos hfse]
  · intro hno
    have hend : findEnd (splitLines content) target fs = none :=
      findEndGo_none_of_no_qual (splitLines content) target fs
        ((splitLines content).length - (fs + 1)) (fs + 1) rfl
        (fun m h1 h2 => hno m (by omega) h2)
    have hrange : extractRange content target = none := by
      simp only [extractRange, hstart, hend]
    unfold extractAssemblyFunction
    rw [hrange]

/-- Witness for C1 at a concrete module with a size marker after the start. -/
theorem extractRange_some_of_start_and_terminator_witness :
    ∃ e, extractRange "glabel f\n.size f" "f" = some (0, e) ∧ 0 ≤ e :=
  (extractRange_some_of_start_and_terminator "glabel f\n.size f" "f" 0
    (by decide)).1 ⟨1, by omega, by decide, Or.inl (by decide)⟩

theorem jr_excludes {p : String} (h : strStartsWith p "jr " = true) :
    (strStartsWith p ".size" || (p == ".align 3")) = false := by
  obtain ⟨t, ht⟩ := strStartsWith_cons h 'j' ['r', ' '] (by rfl)
  rw [Bool.or_eq_false_iff]
  constructor
  · rcases hs : strStartsWith p ".size" with _ | _
    · rfl
    · obtain ⟨t2, ht2⟩ := strStartsWith_cons hs '.' ['s', 'i', 'z', 'e'] (by rfl)
      rw [ht] at ht2
      injection ht2 with h1 _
      exact absurd h1 (by decide)
  · rcases ha : (p == ".align 3") with _ | _
    · rfl
    · rw [beq_iff_eq] at ha
      rw [ha] at ht
      rw [show (".align 3" : String).data = '.' :: "align 3".data from rfl] at ht
      injection ht with h1 _
      exact absurd h1 (by decide)

theorem backScan_at_hit (lines : List String) (fs i j e : Nat) (hfs : fs ≤ j)
    (hh : backHit lines i j = some e) : backScan lines fs i j = some e := by
  cases j with
  | zero =>
    unfold backScan
    rw [if_neg (by omega)]
    exact hh
  | succ j' =>
    unfold backScan
    rw [if_neg (by omega), hh]

theorem backScan_succ_none (lines : List String) (fs i j : Nat)
    (hfs : ¬(j + 1 < fs)) (hh : backHit lines i (j + 1) = none) :
    backScan lines fs i (j + 1) = backScan lines fs i j := by
  conv_lhs => unfold backScan
  rw [if_neg hfs, hh]

theorem backScan_skip (lines : List String) (fs i j : Nat) (hfs : fs ≤ j) :
    ∀ d, (∀ p, j < p → p ≤ j + d → backHit lines i p = none) →
    backScan lines fs i (j + d) = backScan lines fs i j := by
  intro d
  induction d with
  | zero => intro _; rfl
  | succ d ih =>
    intro hnone
    have hstep : j + (d + 1) = (j + d) + 1 := rfl
    rw [hstep, backScan_succ_none lines fs i (j + d) (by omega)
      (hnone (j + d + 1) (by omega) (by omega))]
    exact ih (fun p hp1 hp2 => hnone p hp1 (by omega))

/-- C4 (confirmed): in the backward terminator search, when the first marker
hit while scanning backward is a `ReturnMarker` line (trimmed text beginning
with `jr `), the resolved end is that line's own index: the secondary forward
scan checks align/size conditions against the return-marker line itself, so it
never establishes a stronger terminator and `functionEnd` stays `-1`. -/
theorem backScan_jr_weak_terminator (lines : List String) (fs i j : Nat)
    (hfs : fs ≤ j) (hji : j < i)
    (hjr : strStartsWith (trimStr (lineAt lines j)) "jr " = true)
    (habove : ∀ p, j < p → p < i →
      strStartsWith (trimStr (lineAt lines p)) ".size" = false ∧
      (trimStr (lineAt lines p) == ".align 3") = false ∧
      strStartsWith (trimStr (lineAt lines p)) "jr " = false) :
    backScan lines fs i (i - 1) = some j ∧
    jrScan lines (trimStr (lineAt lines j)) i (j + 1) (-1) = -1 := by
  have hne : (strStartsWith (trimStr (lineAt lines j)) ".size" ||
      (trimStr (lineAt lines j) == ".align 3")) = false := jr_excludes hjr
  have hjrscan : jrScan lines (trimStr (lineAt lines j)) i (j + 1) (-1) = -1 :=
    jrScanGo_const lines _ hne _ _ _
  refine ⟨?_, hjrscan⟩
  have hhit : backHit lines i j = some j := by
    simp only [backHit, hne, Bool.false_eq_true, if_false, hjr, if_true]
    rw [show jrScan lines (trimStr (lineAt lines j)) i (j + 1) (-1) = -1 from hjrscan]
    rfl
  have hd : i - 1 = j + (i - 1 - j) := by omega
  rw [hd, backScan_skip lines fs i j hfs (i - 1 - j)
    (fun p hp1 hp2 => by
      have hp := habove p hp1 (by omega)
      simp only [backHit, hp.1, hp.2.1, hp.2.2, Bool.or_self, Bool.false_eq_true,
        if_false])]
  exact backScan_at_hit lines fs i j j hfs hhit

/-- Witness for C4 at a concrete buffer: line 1 is `jr ra`, line 2 is plain. -/
theorem backScan_jr_weak_terminator_witness :
    backScan (splitLines "glabel f\njr ra\nnop\nglabel g") 0 3 2 = some 1 ∧
    jrScan (splitLines "glabel f\njr ra\nnop\nglabel g")
      (trimStr (lineAt (splitLines "glabel f\njr ra\nnop\nglabel g") 1)) 3 2 (-1) = -1 :=
  backScan_jr_weak_terminator (splitLines "glabel f\njr ra\nnop\nglabel g")
    0 3 1 (by omega) (by omega) (by decide)
    (by
      intro p hp1 hp2
      interval_cases p
      exact ⟨by decide, by decide, by decide⟩)

/-- C6 (amended): with a function open, the catalog builder performs the
inclusive close (`endLine = currentIndex`, open cleared) exactly when the line
does not match `glabel <identifier>` and matches the dotted size regex
`/.size\s+(\w+)/` — whose unescaped dot accepts any character before `size` —
with captured name equal to the open function's name; a literal `.size`
substring is not required. -/
theorem catalogStep_inclusive_close_iff (lines : List String) (st : CatState)
    (i : Nat) (n : String) (s : Nat) (hopen : st.current = some (n, s)) :
    ((catalogStep lines st i).current = none ↔
      (matchGlabelName (trimStr (lineAt lines i)) = none ∧
       matchDotSizeName (trimStr (lineAt lines i)) = some n)) ∧
    (matchGlabelName (trimStr (lineAt lines i)) = none →
     matchDotSizeName (trimStr (lineAt lines i)) = some n →
     catalogStep lines st i =
       { funcs := st.funcs ++ [⟨n, joinSlice lines s (i + 1)⟩], current := none }) := by
  cases hg : matchGlabelName (trimStr (lineAt lines i)) with
  | some name =>
    simp only [catalogStep, hg, hopen]
    constructor
    · simp
    · intro habs
      exact absurd habs (by simp)
  | none =>
    by_cases hd : matchDotSizeName (trimStr (lineAt lines i)) = some n
    · simp only [catalogStep, hg, hopen, if_pos hd]
      constructor
      · simp [hd]
      · intro _ _; trivial
    · simp only [catalogStep, hg, hopen, if_neg hd]
      by_cases hgl : strIncludes (trimStr (lineAt lines i)) "glabel" = true
      · simp only [hgl, if_true]
        constructor
        · simp [hd]
        · intro _ habs
          exact absurd habs hd
      · simp only [Bool.not_eq_true] at hgl
        simp only [hgl, Bool.false_eq_true, if_false]
        constructor
        · simp [hopen, hd]
        · intro _ habs
          exact absurd habs hd

/-- Witness for C6: line 1 of `glabel f\n.size f` closes the open `f`. -/
theorem catalogStep_inclusive_close_iff_witness :
    (catalogStep (splitLines "glabel f\n.size f") ⟨[], some ("f", 0)⟩ 1).current =
      none :=
  ((catalogStep_inclusive_close_iff (splitLines "glabel f\n.size f")
    ⟨[], some ("f", 0)⟩ 1 "f" 0 rfl).1).mpr ⟨by decide, by decide⟩

/-- C10 (amended): with a function open, a line that contains the substring
`glabel`, does not match `glabel <identifier>`, and does not fire the
size-close rule for the open name, closes the open function with
`endLine = currentIndex - 1` and opens a new current function whose name is
the empty string; the catalog can therefore contain empty-named records, as
the concrete conjunct shows. -/
theorem catalogStep_malformed_glabel_opens_empty :
    (∀ (lines : List String) (st : CatState) (i : Nat) (n : String) (s : Nat),
      st.current = some (n, s) →
      matchGlabelName (trimStr (lineAt lines i)) = none →
      ¬matchDotSizeName (trimStr (lineAt lines i)) = some n →
      strIncludes (trimStr (lineAt lines i)) "glabel" = true →
      catalogStep lines st i =
        { funcs := st.funcs ++ [⟨n, joinSlice lines s i⟩],
          current := some ("", i) }) ∧
    listAssemblyFunctions "glabel f\nglabelx" =
      [⟨"f", "glabel f"⟩, ⟨"", "glabelx"⟩] := by
  constructor
  · intro lines st i n s hopen hg hd hgl
    simp only [catalogStep, hg, hopen, if_neg hd, hgl, if_true, Option.getD_none]
  · decide

/-- Witness for C10: the malformed `glabelx` line closes `f` at line 0 and
opens an empty-named function at line 1. -/
theorem catalogStep_malformed_glabel_opens_empty_witness :
    catalogStep (splitLines "glabel f\nglabelx") ⟨[], some ("f", 0)⟩ 1 =
      ⟨[⟨"f", "glabel f"⟩], some ("", 1)⟩ :=
  catalogStep_malformed_glabel_opens_empty.1 (splitLines "glabel f\nglabelx")
    ⟨[], some ("f", 0)⟩ 1 "f" 0 rfl (by decide) (by decide) (by decide)

theorem lastEqWord_sound : ∀ (l w : List Char), lastEqWord l = some w →
    ∃ a b, l = a ++ '=' :: (w ++ b) ∧ w ≠ [] ∧ ∀ c ∈ w, isWordChar c = true := by
  intro l
  induction l with
  | nil => intro w h; exact absurd h (by simp [lastEqWord])
  | cons c rest ih =>
    intro w h
    unfold lastEqWord at h
    by_cases hc : c == '='
    · rw [if_pos hc] at h
      have hce : c = '=' := beq_iff_eq.mp hc
      cases hr : lastEqWord rest with
      | some w2 =>
        rw [hr] at h
        injection h with h'
        obtain ⟨a, b, hab, hne, hw⟩ := ih w2 hr
        rw [← h']
        exact ⟨c :: a, b, by simp [hab], hne, hw⟩
      | none =>
        rw [hr] at h
        by_cases he : (rest.takeWhile isWordChar).isEmpty
        · rw [if_pos he] at h
          exact absurd h (by simp)
        · rw [if_neg he] at h
          injection h with h'
          subst h'
          refine ⟨[], rest.dropWhile isWordChar, ?_, ?_, ?_⟩
          · rw [hce]
            simp [List.takeWhile_append_dropWhile]
          · intro habs
            rw [habs] at he
            exact he rfl
          · intro c2 hc2
            exact List.mem_takeWhile_imp hc2
    · rw [if_neg hc] at h
      obtain ⟨a, b, hab, hne, hw⟩ := ih w h
      exact ⟨c :: a, b, by simp [hab], hne, hw⟩

theorem tryDirectAt_sound (l w : List Char) (h : tryDirectAt l = some w) :
    ∃ kw rest, (kw = "la".data ∨ kw = "add".data ∨ kw = "move".data) ∧
      l = kw ++ rest ∧ lastEqWord rest = some w := by
  unfold tryDirectAt at h
  cases h1 : ("la".data).isPrefixOf? l with
  | some rest =>
    rw [h1] at h
    exact ⟨"la".data, rest, Or.inl rfl, isPrefixOf?_eq_some h1, h⟩
  | none =>
    rw [h1] at h
    cases h2 : ("add".data).isPrefixOf? l with
    | some rest =>
      rw [h2] at h
      exact ⟨"add".data, rest, Or.inr (Or.inl rfl), isPrefixOf?_eq_some h2, h⟩
    | none =>
      rw [h2] at h
      cases h3 : ("move".data).isPrefixOf? l with
      | some rest =>
        rw [h3] at h
        exact ⟨"move".data, rest, Or.inr (Or.inr rfl), isPrefixOf?_eq_some h3, h⟩
      | none =>
        rw [h3] at h
        exact absurd h (by simp)

/-- C7 (amended): the generic reference matcher yields a captured name only
from lines that contain `la`, `add` or `move` somewhere — not necessarily as
the start of the instruction — followed later on the same line by `=` and a
nonempty run of word characters, which is the captured name. -/
theorem scanDirect_only_with_keyword_and_eq :
    ∀ (l w : List Char), scanDirect l = some w →
    ∃ pre kw mid post, (kw = "la".data ∨ kw = "add".data ∨ kw = "move".data) ∧
      l = pre ++ kw ++ mid ++ '=' :: (w ++ post) ∧ w ≠ [] ∧
      ∀ c ∈ w, isWordChar c = true := by
  intro l
  induction l with
  | nil => intro w h; exact absurd h (by simp [scanDirect])
  | cons c cs ih =>
    intro w h
    unfold scanDirect at h
    cases ht : tryDirectAt (c :: cs) with
    | some w2 =>
      rw [ht] at h
      injection h with h'
      obtain ⟨kw, rest, hkw, hsplit, hlast⟩ := tryDirectAt_sound (c :: cs) w2 ht
      obtain ⟨a, b, hab, hne, hw⟩ := lastEqWord_sound rest w2 hlast
      rw [← h']
      exact ⟨[], kw, a, b, hkw, by rw [hsplit, hab]; simp, hne, hw⟩
    | none =>
      rw [ht] at h
      obtain ⟨pre, kw, mid, post, hkw, hsplit, hne, hw⟩ := ih w h
      exact ⟨c :: pre, kw, mid, post, hkw, by simp [hsplit], hne, hw⟩

/-- Witness for C7 on the line `la =x`. -/
theorem scanDirect_only_with_keyword_and_eq_witness :
    ∃ pre kw mid post,
      (kw = "la".data ∨ kw = "add".data ∨ kw = "move".data) ∧
      "la =x".data = pre ++ kw ++ mid ++ '=' :: (['x'] ++ post) ∧
      (['x'] : List Char) ≠ [] ∧ ∀ c ∈ (['x'] : List Char), isWordChar c = true :=
  scanDirect_only_with_keyword_and_eq "la =x".data ['x'] (by decide)

theorem containsSub_self (l : List Char) : containsSub l l = true := by
  have hp : l.isPrefixOf l = true := List.isPrefixOf_iff_prefix.mpr (List.prefix_refl l)
  cases l with
  | nil => rfl
  | cons c cs => simp [containsSub, hp]

theorem strIncludes_self (s : String) : strIncludes s s = true :=
  containsSub_self s.data

theorem wordChar_not_ws {c : Char} (h : isWordChar c = true) :
    c.isWhitespace = false := by
  rcases hw : c.isWhitespace with _ | _
  · rfl
  · exfalso
    have hw' : c = ' ' ∨ c = '\t' ∨ c = '\r' ∨ c = '\n' := by
      simpa [Char.isWhitespace, or_assoc] using hw
    rcases hw' with h1 | h1 | h1 | h1 <;> subst h1 <;> exact absurd h (by decide)

theorem word_no_nl {f : List Char} (hfw : ∀ c ∈ f, isWordChar c = true) :
    '\n' ∉ f := by
  intro hmem
  exact absurd (hfw '\n' hmem) (by decide)

theorem trimStr_eq_self (s : String)
    (h1 : ∀ c, s.data.head? = some c → c.isWhitespace = false)
    (h2 : ∀ c, s.data.getLast? = some c → c.isWhitespace = false) :
    trimStr s = s := by
  unfold trimStr
  have hd : s.data.dropWhile Char.isWhitespace = s.data := by
    cases hs : s.data with
    | nil => rfl
    | cons c cs =>
      have hc := h1 c (by rw [hs]; rfl)
      rw [List.dropWhile_cons_of_neg (by simp [hc])]
  have hd2 : s.data.reverse.dropWhile Char.isWhitespace = s.data.reverse := by
    cases hr : s.data.reverse with
    | nil => rfl
    | cons c cs =>
      have hlast : s.data.getLast? = some c := by rw [← List.head?_reverse, hr]; rfl
      have hc := h2 c hlast
      rw [List.dropWhile_cons_of_neg (by simp [hc])]
  rw [hd, hd2, List.reverse_reverse]

theorem getLast_word_not_ws {f : String} (_hf : f.data ≠ [])
    (hfw : ∀ c ∈ f.data, isWordChar c = true) :
    ∀ c, f.data.getLast? = some c → c.isWhitespace = false := by
  intro c hc
  exact wordChar_not_ws (hfw c (List.mem_of_getLast?_eq_some hc))

theorem trim_marker (pre f : String) (c0 : Char) (cs0 : List Char)
    (hpre : pre.data = c0 :: cs0) (hc0 : c0.isWhitespace = false)
    (hf : f.data ≠ []) (hfw : ∀ c ∈ f.data, isWordChar c = true) :
    trimStr (pre ++ f) = pre ++ f := by
  apply trimStr_eq_self
  · intro c hc
    rw [String.data_append, hpre] at hc
    simp only [List.cons_append, List.head?_cons] at hc
    injection hc with hc
    rw [← hc]
    exact hc0
  · intro c hc
    rw [String.data_append, List.getLast?_append] at hc
    cases hl : f.data.getLast? with
    | none => exact absurd (List.getLast?_eq_none_iff.mp hl) hf
    | some d =>
      rw [hl] at hc
      simp only [Option.or_some] at hc
      injection hc with hc
      rw [← hc]
      exact getLast_word_not_ws hf hfw d hl

theorem isPrefixOf?_append_self : ∀ (pat rest : List Char),
    pat.isPrefixOf? (pat ++ rest) = some rest := by
  intro pat
  induction pat with
  | nil =>
    intro rest
    rw [List.nil_append]
    cases rest <;> rfl
  | cons c cs ih =>
    intro rest
    simp only [List.cons_append, List.isPrefixOf?]
    rw [if_pos (by simp)]
    exact ih rest

theorem wsWord_space_word {w : List Char} (hw : w ≠ [])
    (hall : ∀ c ∈ w, isWordChar c = true) :
    wsWord (' ' :: w) = some w := by
  have hdw : w.dropWhile Char.isWhitespace = w := by
    cases hc : w with
    | nil => rfl
    | cons c cs =>
      have hcw : isWordChar c = true := hall c (by rw [hc]; exact List.mem_cons_self c cs)
      rw [List.dropWhile_cons_of_neg (by simp [wordChar_not_ws hcw])]
  have htw : w.takeWhile isWordChar = w := List.takeWhile_eq_self_iff.mpr hall
  simp only [wsWord]
  rw [List.takeWhile_cons_of_pos (by decide), List.dropWhile_cons_of_pos (by decide),
    hdw, htw]
  simp [hw]

theorem scanKwWord_front (c : Char) (cs rest w : List Char)
    (h : wsWord rest = some w) :
    scanKwWord (c :: cs) ((c :: cs) ++ rest) = some w := by
  have ht : tryKwWordAt (c :: cs) ((c :: cs) ++ rest) = some w := by
    simp only [tryKwWordAt, isPrefixOf?_append_self, h]
  rw [List.cons_append]
  simp only [scanKwWord]
  rw [← List.cons_append, ht]

theorem matchGlabelName_marker (f : String) (hfne : f.data ≠ [])
    (hfw : ∀ c ∈ f.data, isWordChar c = true) :
    matchGlabelName ("glabel " ++ f) = some f := by
  unfold matchGlabelName
  have hdata : ("glabel " ++ f).data = "glabel".data ++ (' ' :: f.data) := by
    rw [String.data_append]; rfl
  rw [hdata,
    show ("glabel".data : List Char) = 'g' :: "label".data from rfl,
    scanKwWord_front 'g' "label".data (' ' :: f.data) f.data
      (wsWord_space_word hfne hfw)]
  rfl

theorem scanDotSize_front (x : Char) (rest w : List Char)
    (h : wsWord rest = some w) :
    scanDotSize (x :: ("size".data ++ rest)) = some w := by
  have ht : tryDotSizeAt (x :: ("size".data ++ rest)) = some w := by
    simp only [tryDotSizeAt, isPrefixOf?_append_self, h]
  simp only [scanDotSize, ht]

theorem matchDotSizeName_marker (f : String) (hfne : f.data ≠ [])
    (hfw : ∀ c ∈ f.data, isWordChar c = true) :
    matchDotSizeName (".size " ++ f) = some f := by
  unfold matchDotSizeName
  have hdata : (".size " ++ f).data = '.' :: ("size".data ++ (' ' :: f.data)) := by
    rw [String.data_append]; rfl
  rw [hdata, scanDotSize_front '.' (' ' :: f.data) f.data (wsWord_space_word hfne hfw)]
  rfl

theorem tryKwWordAt_sound (kw l w : List Char) (h : tryKwWordAt kw l = some w) :
    ∃ rest, l = kw ++ rest ∧ wsWord rest = some w := by
  unfold tryKwWordAt at h
  cases hp : kw.isPrefixOf? l with
  | none => rw [hp] at h; exact absurd h (by simp)
  | some rest => rw [hp] at h; exact ⟨rest, isPrefixOf?_eq_some hp, h⟩

theorem scanKwWord_some_sound (kw : List Char) : ∀ (l w : List Char),
    scanKwWord kw l = some w →
    ∃ a rest, l = a ++ (kw ++ rest) ∧ wsWord rest = some w := by
  intro l
  induction l with
  | nil =>
    intro w h
    obtain ⟨rest, hsplit, hws⟩ := tryKwWordAt_sound kw [] w h
    exact ⟨[], rest, by simpa using hsplit, hws⟩
  | cons c cs ih =>
    intro w h
    simp only [scanKwWord] at h
    cases ht : tryKwWordAt kw (c :: cs) with
    | some w2 =>
      rw [ht] at h
      injection h with h'
      obtain ⟨rest, hsplit, hws⟩ := tryKwWordAt_sound kw (c :: cs) w2 ht
      rw [← h']
      exact ⟨[], rest, by simpa using hsplit, hws⟩
    | none =>
      rw [ht] at h
      obtain ⟨a, rest, hsplit, hws⟩ := ih w h
      exact ⟨c :: a, rest, by simp [hsplit], hws⟩

theorem wsWord_some_head (l w : List Char) (h : wsWord l = some w) :
    ∃ c cs, l = c :: cs ∧ c.isWhitespace = true := by
  simp only [wsWord] at h
  cases l with
  | nil => exact absurd h (by simp)
  | cons c cs =>
    rcases hw : c.isWhitespace with _ | _
    · rw [List.takeWhile_cons_of_neg (by simp [hw])] at h
      exact absurd h (by simp)
    · exact ⟨c, cs, rfl, hw⟩

theorem matchGlabelName_dotsize_none (f : String)
    (hfw : ∀ c ∈ f.data, isWordChar c = true) :
    matchGlabelName (".size " ++ f) = none := by
  unfold matchGlabelName
  cases hs : scanKwWord "glabel".data (".size " ++ f).data with
  | none => rfl
  | some w =>
    exfalso
    obtain ⟨a, rest, hsplit, hws⟩ := scanKwWord_some_sound _ _ _ hs
    obtain ⟨c, cs, hrest, hcws⟩ := wsWord_some_head rest w hws
    rw [String.data_append, hrest] at hsplit
    have hglen : ("glabel".data : List Char).length = 6 := by decide
    have hslen : (".size ".data : List Char).length = 6 := by decide
    have h1 : (a ++ ("glabel".data ++ (c :: cs))).get? (a.length + 6) = some c := by
      rw [List.get?_append_right (by omega)]
      rw [show a.length + 6 - a.length = 6 from by omega]
      rw [List.get?_append_right (by omega)]
      rw [show 6 - ("glabel".data : List Char).length = 0 from by rw [hglen]]
      rfl
    rw [← hsplit] at h1
    rw [List.get?_append_right (by omega)] at h1
    rw [show a.length + 6 - (".size ".data : List Char).length = a.length from by omega] at h1
    have hcmem : c ∈ f.data := List.get?_mem h1
    exact absurd hcws (by simp [wordChar_not_ws (hfw c hcmem)])

theorem intercalate_go_append (s : String) : ∀ (as : List String) (acc₁ acc₂ : String),
    String.intercalate.go (acc₁ ++ acc₂) s as = acc₁ ++ String.intercalate.go acc₂ s as := by
  intro as
  induction as with
  | nil => intro acc₁ acc₂; rfl
  | cons a as ih =>
    intro acc₁ acc₂
    show String.intercalate.go (acc₁ ++ acc₂ ++ s ++ a) s as =
      acc₁ ++ String.intercalate.go (acc₂ ++ s ++ a) s as
    rw [String.append_assoc acc₁ acc₂ s, String.append_assoc acc₁ (acc₂ ++ s) a]
    exact ih acc₁ (acc₂ ++ s ++ a)

theorem intercalate_cons₂ (s a b : String) (rest : List String) :
    String.intercalate s (a :: b :: rest) = a ++ s ++ String.intercalate s (b :: rest) := by
  show String.intercalate.go (a ++ s ++ b) s rest =
    a ++ s ++ String.intercalate.go b s rest
  exact intercalate_go_append s rest (a ++ s) b

theorem intercalate_append_ne (s : String) : ∀ (A : List String), A ≠ [] →
    ∀ (B : List String), B ≠ [] →
    String.intercalate s (A ++ B) =
      String.intercalate s A ++ s ++ String.intercalate s B := by
  intro A
  induction A with
  | nil => intro h; exact absurd rfl h
  | cons a A ih =>
    intro _ B hB
    cases hA : A with
    | nil =>
      cases B with
      | nil => exact absurd rfl hB
      | cons b bs =>
        rw [show (([a] : List String) ++ (b :: bs)) = a :: b :: bs from rfl,
          intercalate_cons₂]
        rfl
    | cons a2 A2 =>
      subst hA
      calc String.intercalate s ((a :: a2 :: A2) ++ B)
          = String.intercalate s (a :: ((a2 :: A2) ++ B)) := rfl
        _ = a ++ s ++ String.intercalate s ((a2 :: A2) ++ B) := by
            rw [show ((a2 :: A2) ++ B : List String) = a2 :: (A2 ++ B) from rfl]
            exact intercalate_cons₂ s a a2 (A2 ++ B)
        _ = a ++ s ++ (String.intercalate s (a2 :: A2) ++ s ++ String.intercalate s B) := by
            rw [ih (by simp) B hB]
        _ = (a ++ s ++ String.intercalate s (a2 :: A2)) ++ s ++ String.intercalate s B := by
            simp [String.append_assoc]
        _ = String.intercalate s (a :: a2 :: A2) ++ s ++ String.intercalate s B := by
            rw [intercalate_cons₂]

theorem splitLinesAux_no_nl : ∀ (l cur : List Char), '\n' ∉ l →
    splitLinesAux cur l = [String.mk (cur.reverse ++ l)] := by
  intro l
  induction l with
  | nil => intro cur _; simp [splitLinesAux]
  | cons c cs ih =>
    intro cur hmem
    have hc : ¬(c == '\n') = true := by
      simp only [beq_iff_eq]
      intro h
      exact hmem (by rw [h]; exact List.mem_cons_self _ _)
    simp only [splitLinesAux]
    rw [if_neg hc, ih (c :: cur) (fun h => hmem (List.mem_cons_of_mem c h))]
    simp [List.reverse_cons, List.append_assoc]

theorem splitLinesAux_break : ∀ (l cur rest : List Char), '\n' ∉ l →
    splitLinesAux cur (l ++ '\n' :: rest) =
      String.mk (cur.reverse ++ l) :: splitLinesAux [] rest := by
  intro l
  induction l with
  | nil =>
    intro cur rest _
    simp only [List.nil_append, splitLinesAux]
    rw [if_pos (by simp)]
    simp
  | cons c cs ih =>
    intro cur rest hmem
    have hc : ¬(c == '\n') = true := by
      simp only [beq_iff_eq]
      intro h
      exact hmem (by rw [h]; exact List.mem_cons_self _ _)
    simp only [List.cons_append, splitLinesAux, List.append_eq]
    rw [if_neg hc, ih (c :: cur) rest (fun h => hmem (List.mem_cons_of_mem c h))]
    simp [List.reverse_cons, List.append_assoc]

theorem splitLinesAux_intercalate : ∀ (ls : List String), ls ≠ [] →
    (∀ l ∈ ls, '\n' ∉ l.data) →
    splitLinesAux [] (String.intercalate "\n" ls).data = ls := by
  intro ls
  induction ls with
  | nil => intro h; exact absurd rfl h
  | cons a as ih =>
    intro _ hnl
    cases as with
    | nil =>
      show splitLinesAux [] a.data = [a]
      rw [splitLinesAux_no_nl a.data [] (hnl a (List.mem_cons_self _ _))]
      rfl
    | cons b bs =>
      rw [intercalate_cons₂]
      have hdata : (a ++ "\n" ++ String.intercalate "\n" (b :: bs)).data =
          a.data ++ ('\n' :: (String.intercalate "\n" (b :: bs)).data) := by
        rw [String.data_append, String.data_append]
        simp [List.append_assoc]
      rw [hdata, splitLinesAux_break a.data [] _ (hnl a (List.mem_cons_self _ _)),
        ih (by simp) (fun l hl => hnl l (List.mem_cons_of_mem a hl))]
      rfl

theorem splitLines_intercalate (ls : List String) (hne : ls ≠ [])
    (hnl : ∀ l ∈ ls, '\n' ∉ l.data) :
    splitLines (String.intercalate "\n" ls) = ls :=
  splitLinesAux_intercalate ls hne hnl

theorem hasNNN_of_no_nl : ∀ (l : List Char), '\n' ∉ l → hasNNN l = false := by
  intro l
  induction l with
  | nil => intro _; rfl
  | cons c cs ih =>
    intro h
    have hc : c ≠ '\n' := fun hh => h (by rw [hh]; exact List.mem_cons_self _ _)
    have hb : ('\n' == c) = false := beq_eq_false_iff_ne.mpr (Ne.symm hc)
    have hs : startsNNN (c :: cs) = false := by
      simp only [startsNNN, List.isPrefixOf, hb, Bool.false_and]
    simp only [hasNNN, hs, ih (fun hh => h (List.mem_cons_of_mem c hh)), Bool.false_or]

theorem hasNNN_append_no_nl : ∀ (a : List Char), (∀ c ∈ a, c ≠ '\n') →
    ∀ (l : List Char), hasNNN l = false → hasNNN (a ++ l) = false := by
  intro a
  induction a with
  | nil => intro _ l hl; simpa using hl
  | cons x xs ih =>
    intro ha l hl
    have hx : x ≠ '\n' := ha x (List.mem_cons_self _ _)
    have hb : ('\n' == x) = false := beq_eq_false_iff_ne.mpr (Ne.symm hx)
    have hs : startsNNN (x :: (xs ++ l)) = false := by
      simp only [startsNNN, List.isPrefixOf, hb, Bool.false_and]
    rw [List.cons_append]
    simp only [hasNNN, hs, Bool.false_or]
    exact ih (fun c hc => ha c (List.mem_cons_of_mem x hc)) l hl

theorem hasNNN_append_false_right : ∀ (pre l : List Char),
    hasNNN (pre ++ l) = false → hasNNN l = false := by
  intro pre
  induction pre with
  | nil => intro l h; simpa using h
  | cons x xs ih =>
    intro l h
    rw [List.cons_append] at h
    simp only [hasNNN] at h
    exact ih l (Bool.or_eq_false_iff.mp h).2

theorem collapseNLAux_id : ∀ (l : List Char) (k : Nat), k ≤ 2 →
    hasNNN (List.replicate k '\n' ++ l) = false →
    collapseNLAux k l = List.replicate k '\n' ++ l := by
  intro l
  induction l with
  | nil =>
    intro k hk _
    show emitNL k = _
    unfold emitNL
    rw [if_neg (by omega)]
    simp
  | cons c cs ih =>
    intro k hk h
    by_cases hc : c == '\n'
    · have hce : c = '\n' := beq_iff_eq.mp hc
      have hk1 : k + 1 ≤ 2 := by
        by_contra hgt
        have hk2 : k = 2 := by omega
        subst hk2
        rw [hce] at h
        rw [show (List.replicate 2 '\n' ++ '\n' :: cs : List Char) =
          '\n' :: '\n' :: '\n' :: cs from rfl] at h
        simp [hasNNN, startsNNN, List.isPrefixOf] at h
      have heq : List.replicate k '\n' ++ c :: cs =
          List.replicate (k + 1) '\n' ++ cs := by
        rw [hce, List.replicate_succ', List.append_assoc]
        rfl
      unfold collapseNLAux
      rw [if_pos hc, heq]
      exact ih (k + 1) hk1 (by rw [← heq]; exact h)
    · have h1 : hasNNN (c :: cs) = false := hasNNN_append_false_right _ _ h
      have hcs : hasNNN cs = false := by
        simp only [hasNNN] at h1
        exact (Bool.or_eq_false_iff.mp h1).2
      unfold collapseNLAux
      rw [if_neg hc, ih 0 (by omega) (by simpa using hcs)]
      unfold emitNL
      rw [if_neg (by omega)]
      simp

theorem hasNNN_nl_intercalate : ∀ (ls : List String),
    (∀ l ∈ ls, l.data ≠ [] ∧ '\n' ∉ l.data) → ls ≠ [] →
    hasNNN ('\n' :: (String.intercalate "\n" ls).data) = false := by
  intro ls
  induction ls with
  | nil => intro _ h; exact absurd rfl h
  | cons a as ih =>
    intro hls _
    obtain ⟨hane, hanl⟩ := hls a (List.mem_cons_self _ _)
    obtain ⟨c0, rest0, ha⟩ : ∃ c0 rest0, a.data = c0 :: rest0 := by
      cases hd : a.data with
      | nil => exact absurd hd hane
      | cons c0 r => exact ⟨c0, r, rfl⟩
    have hc0 : c0 ≠ '\n' := fun h => hanl (by rw [ha, h]; exact List.mem_cons_self _ _)
    have hb0 : ('\n' == c0) = false := beq_eq_false_iff_ne.mpr (Ne.symm hc0)
    cases as with
    | nil =>
      show hasNNN ('\n' :: a.data) = false
      have hs : startsNNN ('\n' :: a.data) = false := by
        rw [ha]
        simp only [startsNNN, List.isPrefixOf, beq_self_eq_true, Bool.true_and, hb0,
          Bool.false_and]
      simp only [hasNNN, hs, Bool.false_or]
      exact hasNNN_of_no_nl a.data hanl
    | cons b bs =>
      rw [intercalate_cons₂]
      have hdata : (a ++ "\n" ++ String.intercalate "\n" (b :: bs)).data =
          a.data ++ ('\n' :: (String.intercalate "\n" (b :: bs)).data) := by
        rw [String.data_append, String.data_append]
        simp [List.append_assoc]
      rw [hdata]
      have htail : hasNNN ('\n' :: (String.intercalate "\n" (b :: bs)).data) = false :=
        ih (fun l hl => hls l (List.mem_cons_of_mem a hl)) (by simp)
      have hs : startsNNN ('\n' :: (a.data ++
          '\n' :: (String.intercalate "\n" (b :: bs)).data)) = false := by
        rw [ha, List.cons_append]
        simp only [startsNNN, List.isPrefixOf, beq_self_eq_true, Bool.true_and, hb0,
          Bool.false_and]
      simp only [hasNNN, hs, Bool.false_or]
      exact hasNNN_append_no_nl a.data
        (fun c hc hh => hanl (by rw [← hh]; exact hc)) _ htail

theorem removeFirstAux_prefix : ∀ (pat rest : List Char),
    removeFirstAux pat (pat ++ rest) = rest := by
  intro pat rest
  cases pat with
  | nil =>
    cases rest with
    | nil => rfl
    | cons c cs =>
      show removeFirstAux [] (c :: cs) = c :: cs
      unfold removeFirstAux
      rw [if_pos (by simp [List.isPrefixOf])]
      rfl
  | cons p ps =>
    have hpre : (p :: ps).isPrefixOf (p :: (ps ++ rest)) = true := by
      rw [← List.cons_append]
      exact List.isPrefixOf_iff_prefix.mpr (List.prefix_append _ _)
    rw [List.cons_append]
    unfold removeFirstAux
    rw [if_pos hpre, ← List.cons_append]
    exact List.drop_left (p :: ps) rest

theorem catalogStep_plain_closed (lines : List String) (st : CatState) (i : Nat)
    (hcur : st.current = none)
    (hg : matchGlabelName (trimStr (lineAt lines i)) = none) :
    catalogStep lines st i = st := by
  simp only [catalogStep, hg, hcur]

theorem catalogStep_open_none (lines : List String) (st : CatState) (i : Nat)
    (hcur : st.current = none) (m : String)
    (hg : matchGlabelName (trimStr (lineAt lines i)) = some m) :
    catalogStep lines st i = ⟨st.funcs, some (m, i)⟩ := by
  simp only [catalogStep, hg, hcur]

theorem catalogStep_body (lines : List String) (st : CatState) (i : Nat)
    (n : String) (s : Nat) (hcur : st.current = some (n, s))
    (hg : matchGlabelName (trimStr (lineAt lines i)) = none)
    (hd : matchDotSizeName (trimStr (lineAt lines i)) ≠ some n)
    (hgl : strIncludes (trimStr (lineAt lines i)) "glabel" = false) :
    catalogStep lines st i = st := by
  simp only [catalogStep, hg, hcur, if_neg hd, hgl, Bool.false_eq_true, if_false]

theorem catalogStep_size_close (lines : List String) (st : CatState) (i : Nat)
    (n : String) (s : Nat) (hcur : st.current = some (n, s))
    (hg : matchGlabelName (trimStr (lineAt lines i)) = none)
    (hd : matchDotSizeName (trimStr (lineAt lines i)) = some n) :
    catalogStep lines st i =
      ⟨st.funcs ++ [⟨n, joinSlice lines s (i + 1)⟩], none⟩ := by
  simp only [catalogStep, hg, hcur, if_pos hd]

theorem foldRange_id (lines : List String) (st : CatState) :
    ∀ (len a : Nat), (∀ i, a ≤ i → i < a + len → catalogStep lines st i = st) →
    (List.range' a len).foldl (catalogStep lines) st = st := by
  intro len
  induction len with
  | zero => intro a _; rfl
  | succ l ih =>
    intro a h
    rw [List.range'_succ]
    simp only [List.foldl_cons]
    rw [h a (Nat.le_refl a) (by omega)]
    exact ih (a + 1) (fun i h1 h2 => h i (by omega) (by omega))

theorem lineAt_cons_succ (a : String) (ls : List String) (i : Nat) :
    lineAt (a :: ls) (i + 1) = lineAt ls i := rfl

theorem lineAt_cons_zero (a : String) (ls : List String) :
    lineAt (a :: ls) 0 = a := rfl

theorem lineAt_append_left (l1 l2 : List String) (i : Nat) (h : i < l1.length) :
    lineAt (l1 ++ l2) i = lineAt l1 i := by
  unfold lineAt
  rw [List.get?_append h]

theorem lineAt_append_right (l1 l2 : List String) (i : Nat) (h : l1.length ≤ i) :
    lineAt (l1 ++ l2) i = lineAt l2 (i - l1.length) := by
  unfold lineAt
  rw [List.get?_append_right h]

theorem lineAt_mem (ls : List String) (i : Nat) (h : i < ls.length) :
    lineAt ls i ∈ ls := by
  unfold lineAt
  cases hg : ls.get? i with
  | none =>
    have := List.get?_eq_none.mp hg
    omega
  | some x => simpa using List.get?_mem hg

theorem catalog_run_block (lines : List String) (n : String) (body : List String)
    (off : Nat) (st : CatState) (hcur : st.current = none)
    (hnne : n.data ≠ []) (hnw : ∀ c ∈ n.data, isWordChar c = true)
    (hgline : lineAt lines off = "glabel " ++ n)
    (hbody : ∀ i, off + 1 ≤ i → i < off + 1 + body.length → lineAt lines i ∈ body)
    (hsline : lineAt lines (off + 1 + body.length) = ".size " ++ n)
    (hb : ∀ l ∈ body, matchGlabelName (trimStr l) = none ∧
      matchDotSizeName (trimStr l) ≠ some n ∧
      strIncludes (trimStr l) "glabel" = false) :
    (List.range' off (body.length + 2)).foldl (catalogStep lines) st =
      ⟨st.funcs ++ [⟨n, joinSlice lines off (off + 1 + body.length + 1)⟩], none⟩ := by
  have h0 : catalogStep lines st off = ⟨st.funcs, some (n, off)⟩ := by
    have htrim : trimStr (lineAt lines off) = "glabel " ++ n := by
      rw [hgline]
      exact trim_marker "glabel " n 'g' "label ".data rfl (by decide) hnne hnw
    have hmatch : matchGlabelName (trimStr (lineAt lines off)) = some n := by
      rw [htrim]
      exact matchGlabelName_marker n hnne hnw
    exact catalogStep_open_none lines st off hcur n hmatch
  have hmid : (List.range' (off + 1) body.length).foldl (catalogStep lines)
      (⟨st.funcs, some (n, off)⟩ : CatState) = ⟨st.funcs, some (n, off)⟩ := by
    apply foldRange_id
    intro i h1 h2
    have hmem := hbody i h1 h2
    obtain ⟨hg, hd, hgl⟩ := hb (lineAt lines i) hmem
    exact catalogStep_body lines _ i n off rfl hg hd hgl
  have hlast : catalogStep lines (⟨st.funcs, some (n, off)⟩ : CatState)
      (off + 1 + body.length) =
      ⟨st.funcs ++ [⟨n, joinSlice lines off (off + 1 + body.length + 1)⟩], none⟩ := by
    have htrim : trimStr (lineAt lines (off + 1 + body.length)) = ".size " ++ n := by
      rw [hsline]
      exact trim_marker ".size " n '.' "size ".data rfl (by decide) hnne hnw
    have hg2 : matchGlabelName (trimStr (lineAt lines (off + 1 + body.length))) = none := by
      rw [htrim]
      exact matchGlabelName_dotsize_none n hnw
    have hd2 : matchDotSizeName (trimStr (lineAt lines (off + 1 + body.length))) = some n := by
      rw [htrim]
      exact matchDotSizeName_marker n hnne hnw
    exact catalogStep_size_close lines _ (off + 1 + body.length) n off rfl hg2 hd2
  rw [show body.length + 2 = body.length + 1 + 1 from rfl, List.range'_succ]
  rw [show List.range' (off + 1) (body.length + 1) =
      List.range' (off + 1) body.length ++ [off + 1 + body.length] from by
    rw [show body.length + 1 = 1 + body.length from by omega,
      ← List.range'_append_1 (off + 1) body.length 1]
    rfl]
  simp only [List.foldl_cons, List.foldl_append]
  rw [h0, hmid]
  simp only [List.foldl_cons, List.foldl_nil]
  exact hlast

theorem marker_no_nl (pre : String) (hpre : '\n' ∉ pre.data) (f : String)
    (hfw : ∀ c ∈ f.data, isWordChar c = true) : '\n' ∉ (pre ++ f).data := by
  rw [String.data_append]
  intro h
  rcases List.mem_append.mp h with h | h
  · exact hpre h
  · exact word_no_nl hfw h

theorem block_no_nl (n : String) (hnw : ∀ c ∈ n.data, isWordChar c = true)
    (body : List String) (hbnl : ∀ l ∈ body, '\n' ∉ l.data) :
    ∀ l ∈ ("glabel " ++ n) :: (body ++ [".size " ++ n]), '\n' ∉ l.data := by
  intro l hl
  rcases List.mem_cons.mp hl with h | h
  · rw [h]; exact marker_no_nl "glabel " (by decide) n hnw
  · rcases List.mem_append.mp h with h | h
    · exact hbnl l h
    · rw [List.mem_singleton.mp h]
      exact marker_no_nl ".size " (by decide) n hnw

theorem block_lineAt_start (n : String) (body : List String) (tail : List String) :
    lineAt ((("glabel " ++ n) :: (body ++ [".size " ++ n])) ++ tail) 0 =
      "glabel " ++ n := rfl

theorem block_lineAt_body (n : String) (body : List String) (tail : List String) :
    ∀ i, 1 ≤ i → i < 1 + body.length →
    lineAt ((("glabel " ++ n) :: (body ++ [".size " ++ n])) ++ tail) i ∈ body := by
  intro i h1 h2
  rw [show (((("glabel " ++ n) :: (body ++ [".size " ++ n])) ++ tail) : List String) =
    ("glabel " ++ n) :: ((body ++ [".size " ++ n]) ++ tail) from rfl]
  rw [show i = (i - 1) + 1 from by omega, lineAt_cons_succ]
  rw [lineAt_append_left _ _ _ (by simp [List.length_append]; omega)]
  rw [lineAt_append_left _ _ _ (by omega)]
  exact lineAt_mem body (i - 1) (by omega)

theorem block_lineAt_size (n : String) (body : List String) (tail : List String) :
    lineAt ((("glabel " ++ n) :: (body ++ [".size " ++ n])) ++ tail)
      (body.length + 1) = ".size " ++ n := by
  rw [show (((("glabel " ++ n) :: (body ++ [".size " ++ n])) ++ tail) : List String) =
    ("glabel " ++ n) :: ((body ++ [".size " ++ n]) ++ tail) from rfl]
  rw [lineAt_cons_succ]
  rw [lineAt_append_left _ _ _ (by simp)]
  rw [lineAt_append_right _ _ _ (by omega)]
  rw [Nat.sub_self]
  rfl

theorem catalog_two_blocks (f g : String) (bodyF bodyG : List String)
    (hfne : f.data ≠ []) (hfw : ∀ c ∈ f.data, isWordChar c = true)
    (hgne : g.data ≠ []) (hgw : ∀ c ∈ g.data, isWordChar c = true)
    (hbFnl : ∀ l ∈ bodyF, '\n' ∉ l.data)
    (hbGnl : ∀ l ∈ bodyG, '\n' ∉ l.data)
    (hbF : ∀ l ∈ bodyF, matchGlabelName (trimStr l) = none ∧
      matchDotSizeName (trimStr l) ≠ some f ∧
      strIncludes (trimStr l) "glabel" = false)
    (hbG : ∀ l ∈ bodyG, matchGlabelName (trimStr l) = none ∧
      matchDotSizeName (trimStr l) ≠ some g ∧
      strIncludes (trimStr l) "glabel" = false) :
    listAssemblyFunctions (String.intercalate "\n"
      ((("glabel " ++ f) :: (bodyF ++ [".size " ++ f])) ++
       (("glabel " ++ g) :: (bodyG ++ [".size " ++ g])))) =
      [⟨f, String.intercalate "\n" (("glabel " ++ f) :: (bodyF ++ [".size " ++ f]))⟩,
       ⟨g, String.intercalate "\n" (("glabel " ++ g) :: (bodyG ++ [".size " ++ g]))⟩] := by
  set A := ("glabel " ++ f) :: (bodyF ++ [".size " ++ f]) with hA
  set B := ("glabel " ++ g) :: (bodyG ++ [".size " ++ g]) with hB
  have hnl : ∀ l ∈ A ++ B, '\n' ∉ l.data := by
    intro l hl
    rcases List.mem_append.mp hl with h | h
    · exact block_no_nl f hfw bodyF hbFnl l h
    · exact block_no_nl g hgw bodyG hbGnl l h
  have hsplit : splitLines (String.intercalate "\n" (A ++ B)) = A ++ B :=
    splitLines_intercalate (A ++ B) (by simp [hA]) hnl
  have hAlen : A.length = bodyF.length + 2 := by simp [hA]
  have hBlen : B.length = bodyG.length + 2 := by simp [hB]
  have hblock1 : (List.range' 0 (bodyF.length + 2)).foldl (catalogStep (A ++ B))
      (⟨[], none⟩ : CatState) =
      ⟨[⟨f, joinSlice (A ++ B) 0 (0 + 1 + bodyF.length + 1)⟩], none⟩ := by
    have h := catalog_run_block (A ++ B) f bodyF 0 ⟨[], none⟩ rfl hfne hfw
      (by rw [hA]; exact block_lineAt_start f bodyF B)
      (by
        intro i h1 h2
        rw [hA]
        exact block_lineAt_body f bodyF B i (by omega) (by omega))
      (by
        rw [hA]
        rw [show (0 + 1 + bodyF.length : Nat) = bodyF.length + 1 from by omega]
        exact block_lineAt_size f bodyF B)
      hbF
    simpa using h
  have hblock2 : (List.range' (bodyF.length + 2) (bodyG.length + 2)).foldl
      (catalogStep (A ++ B))
      (⟨[⟨f, joinSlice (A ++ B) 0 (0 + 1 + bodyF.length + 1)⟩], none⟩ : CatState) =
      ⟨[⟨f, joinSlice (A ++ B) 0 (0 + 1 + bodyF.length + 1)⟩,
        ⟨g, joinSlice (A ++ B) (bodyF.length + 2)
          (bodyF.length + 2 + 1 + bodyG.length + 1)⟩], none⟩ := by
    have h := catalog_run_block (A ++ B) g bodyG (bodyF.length + 2)
      ⟨[⟨f, joinSlice (A ++ B) 0 (0 + 1 + bodyF.length + 1)⟩], none⟩ rfl hgne hgw
      (by
        rw [lineAt_append_right A B (bodyF.length + 2) (by omega), hAlen,
          Nat.sub_self, hB]
        rfl)
      (by
        intro i h1 h2
        rw [lineAt_append_right A B i (by omega), hAlen, hB]
        have hgl := block_lineAt_body g bodyG ([] : List String)
          (i - (bodyF.length + 2)) (by omega) (by omega)
        rw [List.append_nil] at hgl
        exact hgl)
      (by
        rw [lineAt_append_right A B _ (by omega), hAlen]
        rw [show bodyF.length + 2 + 1 + bodyG.length - (bodyF.length + 2) =
          bodyG.length + 1 from by omega, hB]
        have hgl := block_lineAt_size g bodyG ([] : List String)
        rw [List.append_nil] at hgl
        exact hgl)
      hbG
    simpa using h
  have hjf : joinSlice (A ++ B) 0 (0 + 1 + bodyF.length + 1) =
      String.intercalate "\n" A := by
    unfold joinSlice
    rw [List.drop_zero, Nat.sub_zero,
      List.take_left' (by rw [hAlen]; omega)]
  have hjg : joinSlice (A ++ B) (bodyF.length + 2)
      (bodyF.length + 2 + 1 + bodyG.length + 1) = String.intercalate "\n" B := by
    unfold joinSlice
    rw [List.drop_left' (by rw [hAlen])]
    rw [show bodyF.length + 2 + 1 + bodyG.length + 1 - (bodyF.length + 2) =
      bodyG.length + 2 from by omega]
    rw [show bodyG.length + 2 = B.length from by rw [hBlen], List.take_length]
  simp only [listAssemblyFunctions]
  rw [hsplit]
  rw [List.range_eq_range']
  rw [show (A ++ B).length = (bodyG.length + 2) + (bodyF.length + 2) from by
    simp [hAlen, hBlen]; omega]
  rw [← List.range'_append_1 0 (bodyF.length + 2) (bodyG.length + 2)]
  rw [show (0 + (bodyF.length + 2) : Nat) = bodyF.length + 2 from by omega]
  rw [List.foldl_append, hblock1, hblock2]
  simp only [hjf, hjg]

theorem extract_first_block (f g : String) (bodyF bodyG : List String)
    (hfne : f.data ≠ []) (hfw : ∀ c ∈ f.data, isWordChar c = true)
    (hgw : ∀ c ∈ g.data, isWordChar c = true)
    (hbFnl : ∀ l ∈ bodyF, '\n' ∉ l.data)
    (hbGnl : ∀ l ∈ bodyG, '\n' ∉ l.data)
    (hbF2 : ∀ l ∈ bodyF, strIncludes (trimStr l) (".size " ++ f) = false ∧
      strIncludes (trimStr l) "glabel" = false) :
    extractAssemblyFunction (String.intercalate "\n"
      ((("glabel " ++ f) :: (bodyF ++ [".size " ++ f])) ++
       (("glabel " ++ g) :: (bodyG ++ [".size " ++ g])))) f =
      some (String.intercalate "\n" (("glabel " ++ f) :: (bodyF ++ [".size " ++ f]))) := by
  set A := ("glabel " ++ f) :: (bodyF ++ [".size " ++ f]) with hA
  set B := ("glabel " ++ g) :: (bodyG ++ [".size " ++ g]) with hB
  have hnl : ∀ l ∈ A ++ B, '\n' ∉ l.data := by
    intro l hl
    rcases List.mem_append.mp hl with h | h
    · exact block_no_nl f hfw bodyF hbFnl l h
    · exact block_no_nl g hgw bodyG hbGnl l h
  have hsplit : splitLines (String.intercalate "\n" (A ++ B)) = A ++ B :=
    splitLines_intercalate (A ++ B) (by simp [hA]) hnl
  have hLlen : bodyF.length + 2 ≤ (A ++ B).length := by
    simp [hA, List.length_append]
  have htrimf : trimStr ("glabel " ++ f) = "glabel " ++ f :=
    trim_marker "glabel " f 'g' "label ".data rfl (by decide) hfne hfw
  have htrims : trimStr (".size " ++ f) = ".size " ++ f :=
    trim_marker ".size " f '.' "size ".data rfl (by decide) hfne hfw
  have hstart : findStart (A ++ B) f = some 0 := by
    unfold findStart
    apply findStartGo_first (A ++ B) f 0
    · left
      rw [hA, block_lineAt_start f bodyF B, htrimf]
      exact strIncludes_self ("glabel " ++ f)
    · intro p hp
      omega
    · omega
    · omega
  have hend : findEnd (A ++ B) f 0 = some (bodyF.length + 1) := by
    unfold findEnd
    rw [findEndGo_skip (A ++ B) f 0 (bodyF.length + 1) (by omega)
      ((A ++ B).length - (0 + 1)) (0 + 1) rfl (by omega)
      (by
        intro p hp1 hp2
        have hmem : lineAt (A ++ B) p ∈ bodyF := by
          rw [hA]
          exact block_lineAt_body f bodyF B p (by omega) (by omega)
        exact hbF2 _ hmem)]
    obtain ⟨fl, hfl⟩ : ∃ fl, (A ++ B).length - (bodyF.length + 1) = fl + 1 :=
      ⟨(A ++ B).length - (bodyF.length + 1) - 1, by omega⟩
    rw [hfl]
    have hsz : strIncludes (trimStr (lineAt (A ++ B) (bodyF.length + 1)))
        (".size " ++ f) = true := by
      rw [hA, block_lineAt_size f bodyF B, htrims]
      exact strIncludes_self (".size " ++ f)
    simp only [findEndGo, hsz, if_true]
  have hrange : extractRange (String.intercalate "\n" (A ++ B)) f =
      some (0, bodyF.length + 1) := by
    simp only [extractRange, hsplit, hstart, hend]
    rw [if_pos (by omega)]
  unfold extractAssemblyFunction
  rw [hrange, hsplit]
  have hjf : joinSlice (A ++ B) 0 (bodyF.length + 1 + 1) =
      String.intercalate "\n" A := by
    unfold joinSlice
    rw [List.drop_zero, Nat.sub_zero, List.take_left' (by simp [hA])]
  show some (joinSlice (A ++ B) 0 (bodyF.length + 1 + 1)) =
    some (String.intercalate "\n" A)
  rw [hjf]

theorem catalog_cleaned (g : String) (bodyG : List String)
    (hgne : g.data ≠ []) (hgw : ∀ c ∈ g.data, isWordChar c = true)
    (hbGnl : ∀ l ∈ bodyG, '\n' ∉ l.data)
    (hbG : ∀ l ∈ bodyG, matchGlabelName (trimStr l) = none ∧
      matchDotSizeName (trimStr l) ≠ some g ∧
      strIncludes (trimStr l) "glabel" = false) :
    listAssemblyFunctions (String.mk ('\n' ::
      (String.intercalate "\n" (("glabel " ++ g) :: (bodyG ++ [".size " ++ g]))).data)) =
      [⟨g, String.intercalate "\n" (("glabel " ++ g) :: (bodyG ++ [".size " ++ g]))⟩] := by
  set B := ("glabel " ++ g) :: (bodyG ++ [".size " ++ g]) with hB
  have hsplitB : splitLinesAux [] (String.intercalate "\n" B).data = B :=
    splitLinesAux_intercalate B (by simp [hB]) (block_no_nl g hgw bodyG hbGnl)
  have hsplit : splitLines (String.mk ('\n' :: (String.intercalate "\n" B).data)) =
      "" :: B := by
    show splitLinesAux [] ('\n' :: (String.intercalate "\n" B).data) = "" :: B
    unfold splitLinesAux
    rw [if_pos (by simp)]
    rw [hsplitB]
    rfl
  have hlen2 : ("" :: B).length = bodyG.length + 2 + 1 := by simp [hB]
  have hstep0 : catalogStep ("" :: B) (⟨[], none⟩ : CatState) 0 = ⟨[], none⟩ := by
    apply catalogStep_plain_closed ("" :: B) ⟨[], none⟩ 0 rfl
    rw [show lineAt ("" :: B) 0 = "" from rfl]
    rfl
  have hblock : (List.range' 1 (bodyG.length + 2)).foldl (catalogStep ("" :: B))
      (⟨[], none⟩ : CatState) =
      ⟨[⟨g, joinSlice ("" :: B) 1 (1 + 1 + bodyG.length + 1)⟩], none⟩ := by
    have h := catalog_run_block ("" :: B) g bodyG 1 ⟨[], none⟩ rfl hgne hgw
      (by rw [hB]; rfl)
      (by
        intro i h1 h2
        rw [show i = (i - 1) + 1 from by omega, lineAt_cons_succ, hB]
        have hgl := block_lineAt_body g bodyG ([] : List String) (i - 1)
          (by omega) (by omega)
        rw [List.append_nil] at hgl
        exact hgl)
      (by
        rw [show (1 + 1 + bodyG.length : Nat) = (bodyG.length + 1) + 1 from by omega,
          lineAt_cons_succ, hB]
        have hgl := block_lineAt_size g bodyG ([] : List String)
        rw [List.append_nil] at hgl
        exact hgl)
      hbG
    simpa using h
  have hjg : joinSlice ("" :: B) 1 (1 + 1 + bodyG.length + 1) =
      String.intercalate "\n" B := by
    unfold joinSlice
    rw [show (("" :: B).drop 1 : List String) = B from rfl]
    rw [show (1 + 1 + bodyG.length + 1 - 1 : Nat) = bodyG.length + 2 from by omega]
    rw [show bodyG.length + 2 = B.length from by simp [hB], List.take_length]
  simp only [listAssemblyFunctions]
  rw [hsplit, hlen2, List.range_eq_range', List.range'_succ]
  simp only [List.foldl_cons]
  rw [hstep0, hblock]
  simp only [hjg]

/-- C3 (amended): the removal round-trip does not hold for arbitrary modules
(duplicate definitions keep the function listed, and whitespace normalization
can rewrite other functions), but it holds on the family of well-formed
two-function modules: for every pair of distinct word-character names and all
body lines that are nonempty, newline-free and contain no start or size
markers, removing the first function de-lists it and leaves the second
function's cataloged `code` text byte-identical. -/
theorem removal_roundtrip_blocks (f g : String) (bodyF bodyG : List String)
    (hfg : f ≠ g)
    (hfne : f.data ≠ []) (hfw : ∀ c ∈ f.data, isWordChar c = true)
    (hgne : g.data ≠ []) (hgw : ∀ c ∈ g.data, isWordChar c = true)
    (hbF : ∀ l ∈ bodyF, l.data ≠ [] ∧ '\n' ∉ l.data ∧
      matchGlabelName (trimStr l) = none ∧
      matchDotSizeName (trimStr l) ≠ some f ∧
      strIncludes (trimStr l) "glabel" = false ∧
      strIncludes (trimStr l) (".size " ++ f) = false)
    (hbG : ∀ l ∈ bodyG, l.data ≠ [] ∧ '\n' ∉ l.data ∧
      matchGlabelName (trimStr l) = none ∧
      matchDotSizeName (trimStr l) ≠ some g ∧
      strIncludes (trimStr l) "glabel" = false) :
    removeAssemblyFunctionPure (String.intercalate "\n"
        ((("glabel " ++ f) :: (bodyF ++ [".size " ++ f])) ++
         (("glabel " ++ g) :: (bodyG ++ [".size " ++ g])))) f =
      some (String.mk ('\n' ::
        (String.intercalate "\n"
          (("glabel " ++ g) :: (bodyG ++ [".size " ++ g]))).data)) ∧
    listAssemblyFunctions (String.mk ('\n' ::
        (String.intercalate "\n"
          (("glabel " ++ g) :: (bodyG ++ [".size " ++ g]))).data)) =
      [⟨g, String.intercalate "\n" (("glabel " ++ g) :: (bodyG ++ [".size " ++ g]))⟩] ∧
    listAssemblyFunctions (String.intercalate "\n"
        ((("glabel " ++ f) :: (bodyF ++ [".size " ++ f])) ++
         (("glabel " ++ g) :: (bodyG ++ [".size " ++ g])))) =
      [⟨f, String.intercalate "\n" (("glabel " ++ f) :: (bodyF ++ [".size " ++ f]))⟩,
       ⟨g, String.intercalate "\n" (("glabel " ++ g) :: (bodyG ++ [".size " ++ g]))⟩] ∧
    ∀ r ∈ listAssemblyFunctions (String.mk ('\n' ::
        (String.intercalate "\n"
          (("glabel " ++ g) :: (bodyG ++ [".size " ++ g]))).data)),
      r.name ≠ f := by
  set A := ("glabel " ++ f) :: (bodyF ++ [".size " ++ f]) with hA
  set B := ("glabel " ++ g) :: (bodyG ++ [".size " ++ g]) with hB
  have hbFnl : ∀ l ∈ bodyF, '\n' ∉ l.data := fun l hl => (hbF l hl).2.1
  have hbGnl : ∀ l ∈ bodyG, '\n' ∉ l.data := fun l hl => (hbG l hl).2.1
  have hbGcat : ∀ l ∈ bodyG, matchGlabelName (trimStr l) = none ∧
      matchDotSizeName (trimStr l) ≠ some g ∧
      strIncludes (trimStr l) "glabel" = false :=
    fun l hl => ⟨(hbG l hl).2.2.1, (hbG l hl).2.2.2.1, (hbG l hl).2.2.2.2⟩
  have hcleancat : listAssemblyFunctions (String.mk ('\n' ::
      (String.intercalate "\n" B).data)) = [⟨g, String.intercalate "\n" B⟩] := by
    rw [hB]
    exact catalog_cleaned g bodyG hgne hgw hbGnl hbGcat
  have hclean : removeAssemblyFunctionPure (String.intercalate "\n" (A ++ B)) f =
      some (String.mk ('\n' :: (String.intercalate "\n" B).data)) := by
    have hex : extractAssemblyFunction (String.intercalate "\n" (A ++ B)) f =
        some (String.intercalate "\n" A) := by
      rw [hA, hB]
      exact extract_first_block f g bodyF bodyG hfne hfw hgw hbFnl hbGnl
        (fun l hl => ⟨(hbF l hl).2.2.2.2.2, (hbF l hl).2.2.2.2.1⟩)
    unfold removeAssemblyFunctionPure
    rw [hex]
    show some (collapseNewlines (removeFirstOccurrence
      (String.intercalate "\n" (A ++ B)) (String.intercalate "\n" A))) = _
    have hcontent : String.intercalate "\n" (A ++ B) =
        String.intercalate "\n" A ++ "\n" ++ String.intercalate "\n" B :=
      intercalate_append_ne "\n" A (by rw [hA]; simp) B (by rw [hB]; simp)
    have hdata : (String.intercalate "\n" (A ++ B)).data =
        (String.intercalate "\n" A).data ++
          ('\n' :: (String.intercalate "\n" B).data) := by
      rw [hcontent, String.data_append, String.data_append]
      simp [List.append_assoc]
    have hrem : removeFirstOccurrence (String.intercalate "\n" (A ++ B))
        (String.intercalate "\n" A) =
        String.mk ('\n' :: (String.intercalate "\n" B).data) := by
      unfold removeFirstOccurrence
      rw [hdata, removeFirstAux_prefix]
    rw [hrem]
    have hBlines : ∀ l ∈ B, l.data ≠ [] ∧ '\n' ∉ l.data := by
      intro l hl
      refine ⟨?_, block_no_nl g hgw bodyG hbGnl l (by rw [← hB]; exact hl)⟩
      rw [hB] at hl
      rcases List.mem_cons.mp hl with h | h
      · rw [h, String.data_append]; simp
      · rcases List.mem_append.mp h with h | h
        · exact (hbG l h).1
        · rw [List.mem_singleton.mp h, String.data_append]; simp
    have hnn : hasNNN ('\n' :: (String.intercalate "\n" B).data) = false :=
      hasNNN_nl_intercalate B hBlines (by rw [hB]; simp)
    have hcol : collapseNewlines (String.mk ('\n' ::
        (String.intercalate "\n" B).data)) =
        String.mk ('\n' :: (String.intercalate "\n" B).data) := by
      unfold collapseNewlines
      have hid := collapseNLAux_id ('\n' :: (String.intercalate "\n" B).data) 0
        (by omega) (by simpa using hnn)
      rw [show (String.mk ('\n' :: (String.intercalate "\n" B).data)).data =
        '\n' :: (String.intercalate "\n" B).data from rfl, hid]
      simp
    rw [hcol]
  refine ⟨hclean, hcleancat, ?_, ?_⟩
  · rw [hA, hB]
    exact catalog_two_blocks f g bodyF bodyG hfne hfw hgne hgw hbFnl hbGnl
      (fun l hl => ⟨(hbF l hl).2.2.1, (hbF l hl).2.2.2.1, (hbF l hl).2.2.2.2.1⟩)
      hbGcat
  · intro r hr
    rw [hcleancat] at hr
    rw [List.mem_singleton.mp hr]
    exact Ne.symm hfg

/-- Witness for C3 on a concrete well-formed two-function module. -/
theorem removal_roundtrip_blocks_witness :
    removeAssemblyFunctionPure (String.intercalate "\n"
        ((("glabel " ++ "f") :: (["bf"] ++ [".size " ++ "f"])) ++
         (("glabel " ++ "g") :: (["bg"] ++ [".size " ++ "g"])))) "f" =
      some (String.mk ('\n' ::
        (String.intercalate "\n"
          (("glabel " ++ "g") :: (["bg"] ++ [".size " ++ "g"]))).data)) :=
  (removal_roundtrip_blocks "f" "g" ["bf"] ["bg"] (by decide) (by decide)
    (by decide) (by decide) (by decide) (by decide) (by decide)).1
